import Mathlib

/-!
Verification of the vbase database core against its specification.

The definitions below are shallow embeddings of the Rust sources:
bytes are `Nat`s below 256 (with explicit `% 256` where the code casts),
machine integers are `Nat` with explicit truncation where overflow matters,
fallible code returns `Except`/`Option`, and code that can panic returns a
distinguished outcome.  Stateful code is modelled by explicit state passing.
-/

namespace VBase

/-! ## Byte-level primitives (vbase-util/src/codec, little-endian fixed ints) -/

/-- Little-endian encoding of a `u32` (`u32::to_le_bytes`). -/
def encU32 (n : Nat) : List Nat :=
  [n % 256, n / 256 % 256, n / 256 ^ 2 % 256, n / 256 ^ 3 % 256]

/-- Little-endian encoding of a `u16` (`u16::to_le_bytes`). -/
def encU16 (n : Nat) : List Nat :=
  [n % 256, n / 256 % 256]

/-- Little-endian value of a byte list (`from_le_bytes`). -/
def leNum : List Nat → Nat
  | [] => 0
  | b :: rest => b + 256 * leNum rest

theorem leNum_encU32 (n : Nat) (h : n < 2 ^ 32) : leNum (encU32 n) = n := by
  simp only [encU32, leNum]
  omega

theorem leNum_encU16 (n : Nat) (h : n < 2 ^ 16) : leNum (encU16 n) = n := by
  simp only [encU16, leNum]
  omega

/-! ## CRC32 (vbase-util/src/crc32.rs, the standard IEEE polynomial of crc32fast) -/

/-- One bit round of the reflected IEEE CRC32. -/
def crc32Round (x : Nat) : Nat :=
  if x % 2 = 1 then (x / 2) ^^^ 0xEDB88320 else x / 2

/-- Feed one byte into the CRC32 state. -/
def crc32Byte (crc b : Nat) : Nat :=
  Nat.iterate crc32Round 8 (crc ^^^ (b % 256))

/-- Feed a byte list into the CRC32 state. -/
def crc32Update (crc : Nat) (bs : List Nat) : Nat :=
  bs.foldl crc32Byte crc

/-- Model of `crc32::checksum`: CRC32 of a byte list. -/
def crc32 (bs : List Nat) : Nat :=
  crc32Update 0xFFFFFFFF bs ^^^ 0xFFFFFFFF

/-- Model of `crc32::checksum_combined`: CRC32 of two byte lists combined. -/
def checksumCombined (a b : List Nat) : Nat :=
  crc32 (a ++ b)

theorem crc32Round_lt (x : Nat) (h : x < 2 ^ 32) : crc32Round x < 2 ^ 32 := by
  unfold crc32Round
  split
  · exact Nat.xor_lt_two_pow (by omega) (by norm_num)
  · omega

theorem crc32Byte_lt (crc b : Nat) (h : crc < 2 ^ 32) : crc32Byte crc b < 2 ^ 32 := by
  unfold crc32Byte
  have hx : crc ^^^ (b % 256) < 2 ^ 32 :=
    Nat.xor_lt_two_pow h (lt_of_lt_of_le (Nat.mod_lt b (by norm_num)) (by norm_num))
  have step : ∀ n x, x < 2 ^ 32 → Nat.iterate crc32Round n x < 2 ^ 32 := by
    intro n
    induction n with
    | zero => intro x hx; simpa using hx
    | succ k ih =>
      intro x hx
      rw [Function.iterate_succ_apply]
      exact ih _ (crc32Round_lt x hx)
  exact step 8 _ hx

theorem crc32Update_lt (crc : Nat) (bs : List Nat) (h : crc < 2 ^ 32) :
    crc32Update crc bs < 2 ^ 32 := by
  induction bs generalizing crc with
  | nil => simpa [crc32Update] using h
  | cons b rest ih => simpa [crc32Update] using ih (crc32Byte crc b) (crc32Byte_lt crc b h)

theorem crc32_lt (bs : List Nat) : crc32 bs < 2 ^ 32 :=
  Nat.xor_lt_two_pow (crc32Update_lt _ bs (by norm_num)) (by norm_num)

/-! ## Recovery journal selection (vbase-core/src/core.rs, `Recover::journals_to_recover`)

The root directory lists journal files as a `BTreeSet<u64>`, so the id list
iterated by the code is strictly ascending.  The code peels off every id
`≤ min_lsn` while remembering the last one, then chains the remainder.
-/

/-- Loop of `journals_to_recover`: `while let Some(id) = iter.next_if(|&id| id <= min_lsn)`. -/
def journalsToRecoverAux (minLsn : Nat) : Option Nat → List Nat → List Nat
  | first, [] => first.toList
  | first, id :: rest =>
    if id ≤ minLsn then journalsToRecoverAux minLsn (some id) rest
    else first.toList ++ id :: rest

/-- Model of `Recover::journals_to_recover` on the ascending journal id list. -/
def journalsToRecover (minLsn : Nat) (journals : List Nat) : List Nat :=
  journalsToRecoverAux minLsn none journals

theorem getLast?_cons_or (a : Nat) (l : List Nat) :
    (a :: l).getLast? = l.getLast?.or (some a) := by
  induction l generalizing a with
  | nil => rfl
  | cons b t ih => rw [List.getLast?_cons_cons, ih b]; cases t.getLast? <;> rfl

theorem journalsToRecoverAux_spec (minLsn : Nat) (js : List Nat) (first : Option Nat)
    (hs : js.Sorted (· < ·)) :
    journalsToRecoverAux minLsn first js =
      ((js.filter (fun id => id ≤ minLsn)).getLast?.or first).toList ++
        js.filter (fun id => minLsn < id) := by
  induction js generalizing first with
  | nil => simp [journalsToRecoverAux]
  | cons id rest ih =>
    have hrest : rest.Sorted (· < ·) := hs.of_cons
    have hall : ∀ x ∈ rest, id < x := fun x hx => (List.sorted_cons.mp hs).1 x hx
    by_cases hle : id ≤ minLsn
    · rw [journalsToRecoverAux, if_pos hle, ih (some id) hrest]
      have h1 : (id :: rest).filter (fun id => id ≤ minLsn) =
          id :: rest.filter (fun id => id ≤ minLsn) := by
        simp [List.filter_cons, hle]
      have h2 : (id :: rest).filter (fun id => minLsn < id) =
          rest.filter (fun id => minLsn < id) := by
        simp [List.filter_cons, Nat.not_lt.mpr hle]
      rw [h1, h2, getLast?_cons_or]
      cases (rest.filter (fun id => id ≤ minLsn)).getLast? <;> rfl
    · rw [journalsToRecoverAux, if_neg hle]
      have hgt : minLsn < id := Nat.not_le.mp hle
      have h1 : (id :: rest).filter (fun id => id ≤ minLsn) = [] := by
        simp only [List.filter_eq_nil_iff]
        intro x hx
        rcases List.mem_cons.mp hx with h | h
        · subst h; simpa using hle
        · have := hall x h; simp; omega
      have h2 : (id :: rest).filter (fun id => minLsn < id) = id :: rest := by
        rw [List.filter_eq_self]
        intro x hx
        rcases List.mem_cons.mp hx with h | h
        · subst h; simpa using hgt
        · have := hall x h; simp; omega
      rw [h1, h2]
      cases first <;> rfl

theorem sorted_getLast?_ge (l : List Nat) (a : Nat) (hs : l.Sorted (· < ·))
    (hl : l.getLast? = some a) : ∀ b ∈ l, b ≤ a := by
  induction l with
  | nil => simp at hl
  | cons x t ih =>
    intro b hb
    rcases List.mem_cons.mp hb with rfl | hbt
    · cases t with
      | nil => simp at hl; omega
      | cons y s =>
        rw [List.getLast?_cons_cons] at hl
        obtain ⟨hne, heq⟩ :=
          List.mem_getLast?_eq_getLast (l := y :: s) (x := a) (by simp [hl])
        have ha : a ∈ y :: s := heq ▸ List.getLast_mem hne
        have := (List.sorted_cons.mp hs).1 a ha
        omega
    · cases t with
      | nil => simp at hbt
      | cons y s =>
        rw [List.getLast?_cons_cons] at hl
        exact ih hs.of_cons hl b hbt

/-- C6: the journals selected for recovery are exactly the greatest journal id
that is `≤ min_lsn` (if any), followed by all journal ids strictly greater than
`min_lsn`, in ascending order; all other journals with id `≤ min_lsn` are not
replayed. -/
theorem journals_to_recover_selection (minLsn : Nat) (js : List Nat)
    (hs : js.Sorted (· < ·)) :
    journalsToRecover minLsn js =
      (js.filter (fun id => id ≤ minLsn)).getLast?.toList ++
        js.filter (fun id => minLsn < id) ∧
    ∀ a, (js.filter (fun id => id ≤ minLsn)).getLast? = some a →
      ∀ b ∈ js, b ≤ minLsn → b ≤ a := by
  constructor
  · rw [journalsToRecover, journalsToRecoverAux_spec minLsn js none hs]
    cases (js.filter (fun id => id ≤ minLsn)).getLast? <;> rfl
  · intro a ha b hb hble
    have hbf : b ∈ js.filter (fun id => id ≤ minLsn) := by
      rw [List.mem_filter]; exact ⟨hb, by simpa using hble⟩
    exact sorted_getLast?_ge _ a (hs.filter _) ha b hbf

/-- Closed witness for `journals_to_recover_selection`. -/
theorem journals_to_recover_selection_witness :
    journalsToRecover 4 [1, 3, 5, 6] =
      ([1, 3, 5, 6].filter (fun id => id ≤ 4)).getLast?.toList ++
        [1, 3, 5, 6].filter (fun id => 4 < id) :=
  (journals_to_recover_selection 4 [1, 3, 5, 6] (by decide)).1

/-! ## Write pipeline publication (vbase-core/src/pipeline.rs)

`WriteCommitter::publish` runs a CAS loop on the atomic published LSN that
replaces the stored value only with a strictly larger one; every atomic step
of the loop is an instance of the transition below, so any interleaving of
`publish` calls drives the register through a trace of these steps.
-/

/-- Model of one atomic step of `WriteCommitter::publish`: replace the stored
LSN only if it is smaller. -/
def publishLsn (cur lsn : Nat) : Nat :=
  if cur < lsn then lsn else cur

/-- Stored LSN after a sequence of publish steps (what `last_lsn` loads). -/
def publishedTrace (init : Nat) (lsns : List Nat) : Nat :=
  lsns.foldl publishLsn init

theorem le_publishedTrace (init : Nat) (lsns : List Nat) :
    init ≤ publishedTrace init lsns := by
  induction lsns generalizing init with
  | nil => simp [publishedTrace]
  | cons x rest ih =>
    refine le_trans ?_ (ih (publishLsn init x))
    unfold publishLsn; split <;> omega

/-- C8: `publish` is a monotonic max, so the LSN values observed by
`last_lsn()` along any trace of publish steps are non-decreasing. -/
theorem publish_monotonic :
    (∀ cur lsn, publishLsn cur lsn = max cur lsn) ∧
    ∀ (init : Nat) (lsns : List Nat) (i j : Nat), i ≤ j →
      publishedTrace init (lsns.take i) ≤ publishedTrace init (lsns.take j) := by
  constructor
  · intro cur lsn; unfold publishLsn; split <;> omega
  · intro init lsns i j hij
    have hsplit : lsns.take j = lsns.take i ++ (lsns.drop i).take (j - i) := by
      have h : i + (j - i) = j := by omega
      rw [← h, List.take_add]
      simp
    rw [hsplit]
    unfold publishedTrace
    rw [List.foldl_append]
    exact le_publishedTrace _ _

/-- Closed witness for `publish_monotonic`. -/
theorem publish_monotonic_witness :
    publishedTrace 0 ([5, 3, 7].take 1) ≤ publishedTrace 0 ([5, 3, 7].take 3) :=
  publish_monotonic.2 0 [5, 3, 7] 1 3 (by decide)

/-! ## Errors (vbase-core/src/error.rs, vbase-tree/src/error.rs) -/

/-- Error taxonomy observable by callers. -/
inductive DbError where
  | io
  | corrupted (name message : String)
  | locked (path : String)
  | alreadyExists (name : String)
  | notExist (name : String)
  | invalidArgument (message : String)
deriving DecidableEq

/-- Outcome of an operation: success, a propagated error, or a panic. -/
inductive Outcome (α : Type) where
  | ok (a : α)
  | err (e : DbError)
  | panicked (msg : String)
deriving DecidableEq

/-! ## Tree engine manifest and buckets (vbase-tree/src/{manifest,engine,file}.rs)

HashMaps are modelled as association lists (insertion replaces an existing
key, otherwise appends).  Sizes of prost-encoded records are abstracted as
explicit arguments (`esize` for an edit record, `dsize` for a descriptor
snapshot record); the branch structure of the code does not depend on them.
I/O failure of the edit write in `ManifestWriter::write` is injected through
the `writeOk` flag; the file operations of the rotation path are modelled as
succeeding.
-/

/-- Lookup in an association list keyed by `Nat` (HashMap get). -/
def assocGet {α : Type} (l : List (Nat × α)) (k : Nat) : Option α :=
  (l.find? (fun p => p.1 = k)).map (·.2)

/-- Insert into an association list keyed by `Nat` (HashMap insert). -/
def assocInsert {α : Type} (l : List (Nat × α)) (k : Nat) (v : α) : List (Nat × α) :=
  if (l.find? (fun p => p.1 = k)).isSome then
    l.map (fun p => if p.1 = k then (k, v) else p)
  else l ++ [(k, v)]

/-- Remove from an association list keyed by `Nat` (HashMap remove). -/
def assocRemove {α : Type} (l : List (Nat × α)) (k : Nat) : List (Nat × α) :=
  l.filter (fun p => p.1 ≠ k)

/-- Model of `manifest::RangeDesc` (only the level). -/
structure RangeDesc where
  level : Nat
deriving DecidableEq

/-- Model of `manifest::BucketDesc`. -/
structure BucketDesc where
  name : String
  ranges : List (Nat × RangeDesc)
deriving DecidableEq

/-- Model of `manifest::BucketEdit`. -/
structure BucketEdit where
  name : Option String
  addRanges : List (Nat × RangeDesc)
  deleteRanges : List Nat
deriving DecidableEq

/-- Model of `manifest::Desc`. -/
structure TreeDesc where
  lastId : Nat
  buckets : List (Nat × BucketDesc)
deriving DecidableEq

/-- Model of `manifest::Edit`. -/
structure TreeEdit where
  lastId : Nat
  addBuckets : List (Nat × BucketDesc)
  deleteBuckets : List Nat
  updateBuckets : List (Nat × BucketEdit)
deriving DecidableEq

/-- Model of `BucketDesc::merge`; `none` models the panics on a missing range. -/
def BucketDesc.merge? (b : BucketDesc) (e : BucketEdit) : Option BucketDesc := do
  let b := match e.name with
    | some n => { b with name := n }
    | none => b
  let ranges := e.addRanges.foldl (fun acc kv => assocInsert acc kv.1 kv.2) b.ranges
  let ranges ← e.deleteRanges.foldlM
    (fun acc id => if (assocGet acc id).isSome then some (assocRemove acc id) else none) ranges
  some { b with ranges }

/-- Model of `Desc::merge`; `none` models the panics on a missing bucket. -/
def TreeDesc.merge? (d : TreeDesc) (e : TreeEdit) : Option TreeDesc := do
  let lastId := max d.lastId e.lastId
  let buckets := e.addBuckets.foldl (fun acc kv => assocInsert acc kv.1 kv.2) d.buckets
  let buckets ← e.deleteBuckets.foldlM
    (fun acc id => if (assocGet acc id).isSome then some (assocRemove acc id) else none) buckets
  let buckets ← e.updateBuckets.foldlM
    (fun acc kv => do
      let b ← assocGet acc kv.1
      let b' ← b.merge? kv.2
      some (assocInsert acc kv.1 b'))
    buckets
  some { lastId, buckets }

/-- Model of `ManifestWriter` (the id and logical size of its active file). -/
structure ManifestWriter where
  desc : TreeDesc
  fileId : Nat
  fileSize : Nat
  initSize : Nat
deriving DecidableEq

/-- `ManifestWriter::MIN_FILE_SIZE`. -/
def minFileSize : Nat := 1024 * 1024

/-- Model of `ManifestWriter::should_switch_file`. -/
def ManifestWriter.shouldSwitchFile (w : ManifestWriter) : Bool :=
  decide (max (w.initSize * 2) minFileSize ≤ w.fileSize)

/-- Model of `ManifestWriter::write`: write the edit record, sync, then merge
the descriptor.  The descriptor is merged only after the write succeeded. -/
def ManifestWriter.write (w : ManifestWriter) (e : TreeEdit) (writeOk : Bool) (esize : Nat) :
    Outcome ManifestWriter :=
  if !writeOk then .err .io
  else match w.desc.merge? e with
    | none => .panicked "merge panicked"
    | some d => .ok { w with fileSize := w.fileSize + esize, desc := d }

/-- Model of `ManifestWriter::switch_file` followed by `init_file`. -/
def ManifestWriter.switchFile (w : ManifestWriter) (id : Nat) (dsize : Nat) : ManifestWriter :=
  { desc := { w.desc with lastId := id }, fileId := id, fileSize := dsize, initSize := dsize }

/-- File-system state of the tree engine directory (vbase-tree/src/file.rs). -/
structure TreeFs where
  manifests : List Nat
  current : Option Nat
deriving DecidableEq

/-- Model of `RootDir::create_manifest` (a new `manifest-<id>` file appears). -/
def TreeFs.createManifest (fs : TreeFs) (id : Nat) : TreeFs :=
  { fs with manifests := fs.manifests ++ [id] }

/-- Model of `RootDir::delete_manifest`; deleting a missing file is an I/O error. -/
def TreeFs.deleteManifest (fs : TreeFs) (id : Nat) : Outcome TreeFs :=
  if id ∈ fs.manifests then .ok { fs with manifests := fs.manifests.erase id }
  else .err .io

/-- Model of `RootDir::switch_current` (temp write + atomic rename). -/
def TreeFs.switchCurrent (fs : TreeFs) (id : Nat) : TreeFs :=
  { fs with current := some id }

/-- Model of `EngineHandle` state: bucket map, manifest writer, directory. -/
structure TreeEngine where
  engineId : Nat
  nextId : Nat
  buckets : List (String × Nat)
  mw : ManifestWriter
  fs : TreeFs
deriving DecidableEq

/-- Lookup in the bucket map (name to bucket id). -/
def lookupName (l : List (String × Nat)) (name : String) : Option Nat :=
  (l.find? (fun p => p.1 = name)).map (·.2)

/-- Remove from the bucket map. -/
def removeName (l : List (String × Nat)) (name : String) : List (String × Nat) :=
  l.filter (fun p => p.1 ≠ name)

/-- Model of `EngineHandle::update_manifest`: write the edit, then rotate to a
fresh manifest file when the active one passed the size threshold.  Returns
the outcome together with the post-call engine state. -/
def TreeEngine.updateManifest (st : TreeEngine) (e : TreeEdit) (writeOk : Bool)
    (esize dsize : Nat) : Outcome Unit × TreeEngine :=
  match st.mw.write e writeOk esize with
  | .err er => (.err er, st)
  | .panicked m => (.panicked m, st)
  | .ok mw1 =>
    if mw1.shouldSwitchFile then
      let id := st.nextId
      let st1 := { st with nextId := st.nextId + 1 }
      let fs1 := st1.fs.createManifest id
      let mw2 := mw1.switchFile id dsize
      let fs2 := fs1.switchCurrent id
      match fs2.deleteManifest id with
      | .ok fs3 => (.ok (), { st1 with mw := mw2, fs := fs3 })
      | .err er => (.err er, { st1 with mw := mw2, fs := fs2 })
      | .panicked m => (.panicked m, { st1 with mw := mw2, fs := fs2 })
    else (.ok (), { st with mw := mw1 })

/-- Model of `EngineHandle::bucket`. -/
def TreeEngine.bucket (st : TreeEngine) (name : String) : Outcome Nat :=
  match lookupName st.buckets name with
  | none => .err (.notExist ("bucket " ++ name))
  | some id => .ok id

/-- Model of `EngineHandle::create_bucket`. -/
def TreeEngine.createBucket (st : TreeEngine) (name : String) (writeOk : Bool)
    (esize dsize : Nat) : Outcome Nat × TreeEngine :=
  if (lookupName st.buckets name).isSome then
    (.err (.alreadyExists ("bucket " ++ name)), st)
  else
    let id := st.nextId
    let st1 := { st with nextId := st.nextId + 1 }
    let edit : TreeEdit :=
      { lastId := id, addBuckets := [(id, { name := name, ranges := [] })],
        deleteBuckets := [], updateBuckets := [] }
    match st1.updateManifest edit writeOk esize dsize with
    | (.ok _, st2) => (.ok id, { st2 with buckets := st2.buckets ++ [(name, id)] })
    | (.err er, st2) => (.err er, st2)
    | (.panicked m, st2) => (.panicked m, st2)

/-- Model of `EngineHandle::delete_bucket`. -/
def TreeEngine.deleteBucket (st : TreeEngine) (name : String) (writeOk : Bool)
    (esize dsize : Nat) : Outcome Unit × TreeEngine :=
  match lookupName st.buckets name with
  | none => (.err (.notExist ("bucket " ++ name)), st)
  | some id =>
    let edit : TreeEdit :=
      { lastId := 0, addBuckets := [], deleteBuckets := [id], updateBuckets := [] }
    match st.updateManifest edit writeOk esize dsize with
    | (.ok _, st2) => (.ok (), { st2 with buckets := removeName st2.buckets name })
    | (.err er, st2) => (.err er, st2)
    | (.panicked m, st2) => (.panicked m, st2)

/-- C10: if the manifest edit write fails, `create_bucket` and `delete_bucket`
return the error without touching the in-memory bucket map, so `bucket(name)`
lookups behave exactly as before, and the in-memory descriptor is not merged. -/
theorem tree_bucket_ops_atomic_on_write_error :
    ∀ (st : TreeEngine) (name : String) (esize dsize : Nat),
      ((∃ e, (st.createBucket name false esize dsize).1 = Outcome.err e) ∧
        (st.createBucket name false esize dsize).2.buckets = st.buckets ∧
        (st.createBucket name false esize dsize).2.mw.desc = st.mw.desc ∧
        ∀ n, (st.createBucket name false esize dsize).2.bucket n = st.bucket n) ∧
      ((∃ e, (st.deleteBucket name false esize dsize).1 = Outcome.err e) ∧
        (st.deleteBucket name false esize dsize).2.buckets = st.buckets ∧
        (st.deleteBucket name false esize dsize).2.mw.desc = st.mw.desc ∧
        ∀ n, (st.deleteBucket name false esize dsize).2.bucket n = st.bucket n) := by
  intro st name esize dsize
  have hup : ∀ (st1 : TreeEngine) (e : TreeEdit),
      st1.updateManifest e false esize dsize = (.err .io, st1) := by
    intro st1 e
    simp [TreeEngine.updateManifest, ManifestWriter.write]
  constructor
  · by_cases h : (lookupName st.buckets name).isSome
    · have hc : st.createBucket name false esize dsize =
          (.err (.alreadyExists ("bucket " ++ name)), st) := by
        simp [TreeEngine.createBucket, h]
      exact ⟨⟨_, by rw [hc]⟩, by rw [hc], by rw [hc], fun n => by rw [hc]⟩
    · have hc : st.createBucket name false esize dsize =
          (.err .io, { st with nextId := st.nextId + 1 }) := by
        simp [TreeEngine.createBucket, h, hup]
      exact ⟨⟨_, by rw [hc]⟩, by rw [hc], by rw [hc],
        fun n => by rw [hc]; simp [TreeEngine.bucket]⟩
  · match hname : lookupName st.buckets name with
    | none =>
      have hc : st.deleteBucket name false esize dsize =
          (.err (.notExist ("bucket " ++ name)), st) := by
        simp [TreeEngine.deleteBucket, hname]
      exact ⟨⟨_, by rw [hc]⟩, by rw [hc], by rw [hc], fun n => by rw [hc]⟩
    | some id =>
      have hc : st.deleteBucket name false esize dsize = (.err .io, st) := by
        simp [TreeEngine.deleteBucket, hname, hup]
      exact ⟨⟨_, by rw [hc]⟩, by rw [hc], by rw [hc], fun n => by rw [hc]⟩

/-- Closed witness for `tree_bucket_ops_atomic_on_write_error`. -/
theorem tree_bucket_ops_atomic_on_write_error_witness :
    (({ engineId := 1, nextId := 2, buckets := [("a", 1)],
        mw := { desc := { lastId := 1, buckets := [(1, { name := "a", ranges := [] })] },
                fileId := 1, fileSize := 10, initSize := 10 },
        fs := { manifests := [1], current := some 1 } } : TreeEngine).createBucket
          "b" false 3 5).2.buckets = [("a", 1)] :=
  (tree_bucket_ops_atomic_on_write_error
    { engineId := 1, nextId := 2, buckets := [("a", 1)],
      mw := { desc := { lastId := 1, buckets := [(1, { name := "a", ranges := [] })] },
              fileId := 1, fileSize := 10, initSize := 10 },
      fs := { manifests := [1], current := some 1 } } "b" 3 5).1.2.1

/-! ### C4: the CURRENT pointer invariant is broken by manifest rotation

`EngineHandle::update_manifest` rotates by creating `manifest-<id>`, switching
the writer to it, switching `CURRENT` to it, and then deleting `manifest-<id>`
itself, so right after a rotation `CURRENT` names a manifest file that no
longer exists in the engine directory. -/

/-- Concrete engine state about to rotate: active manifest `1` has grown to
the 1 MiB threshold, `CURRENT` names it, and it exists on disk. -/
def rotationState : TreeEngine :=
  { engineId := 1, nextId := 2, buckets := [("a", 1)],
    mw := { desc := { lastId := 1, buckets := [(1, { name := "a", ranges := [] })] },
            fileId := 1, fileSize := 1048576, initSize := 100 },
    fs := { manifests := [1], current := some 1 } }

/-- Empty edit driving the rotation. -/
def rotationEdit : TreeEdit :=
  { lastId := 0, addBuckets := [], deleteBuckets := [], updateBuckets := [] }

/-- C4 (violated): before the call `CURRENT` names an existing manifest file,
the edit write succeeds and triggers rotation, and afterwards `CURRENT` names
manifest `2`, which the rotation itself has deleted from the directory. -/
theorem manifest_rotation_breaks_current_invariant :
    rotationState.fs.current = some rotationState.mw.fileId ∧
    rotationState.mw.fileId ∈ rotationState.fs.manifests ∧
    (rotationState.updateManifest rotationEdit true 0 50).1 = .ok () ∧
    (rotationState.updateManifest rotationEdit true 0 50).2.fs.current = some 2 ∧
    2 ∉ (rotationState.updateManifest rotationEdit true 0 50).2.fs.manifests := by
  refine ⟨rfl, by decide, ?_, ?_, ?_⟩ <;> decide

/-! ## Recovery replay (vbase-core/src/core.rs)

Journals are given to the replay driver as already-decoded `(lsn, batch)`
record lists; the block/fragment file format that produces them is modelled
separately below.  The batch bytes themselves are decoded here exactly as
`WriteBatchIter` does (varint engine id, varint-length-prefixed payload);
`none`/`panicked` models the panics of the trusted-decoder on malformed
bytes.
-/

/-- Model of `Varint::decode_from` for `u64`/`usize` (64-bit): 7 bits per
continuation byte, failing (panicking) past 64 bits of shift or on an empty
input.  Shifts truncate to 64 bits as in Rust. -/
def decodeVarintAux (acc shift : Nat) : List Nat → Option (Nat × List Nat)
  | [] => none
  | b :: rest =>
    if 64 ≤ shift then none
    else if 0x80 ≤ b then
      decodeVarintAux (acc ||| (((b &&& 0x7F) <<< shift) % 2 ^ 64)) (shift + 7) rest
    else some (acc ||| ((b <<< shift) % 2 ^ 64), rest)

/-- Model of `Decode for &[u8]`: varint length, then that many bytes; `none`
models the slice-bounds panic of `remove`. -/
def decodeSlice (bs : List Nat) : Option (List Nat × List Nat) := do
  let (len, rest) ← decodeVarintAux 0 0 bs
  if rest.length < len then none
  else some (rest.take len, rest.drop len)

/-- Loop of `WriteBatchIter::next` until the batch bytes are exhausted.  The
fuel is `length + 1`; every iteration consumes at least one byte, so the fuel
branch is unreachable. -/
def decodeBatchAux : Nat → List Nat → Option (List (Nat × List Nat))
  | _, [] => some []
  | 0, _ :: _ => none
  | fuel + 1, b :: bs => do
    let (id, rest) ← decodeVarintAux 0 0 (b :: bs)
    let (batch, rest2) ← decodeSlice rest
    let tail ← decodeBatchAux fuel rest2
    some ((id, batch) :: tail)

/-- Model of iterating `WriteBatchIter` over a batch's bytes. -/
def decodeBatch (bs : List Nat) : Option (List (Nat × List Nat)) :=
  decodeBatchAux (bs.length + 1) bs

/-- Model of an opened engine during recovery: the id it is registered under,
its last durable LSN (`last_lsn`, unchanged by in-session writes), and the
`write(lsn, batch)` calls it has received. -/
structure EngineSt where
  id : Nat
  lastLsn : Nat
  applied : List (Nat × List Nat)
deriving DecidableEq

/-- Model of `Engines::min_last_lsn`. -/
def minLastLsn (es : List EngineSt) : Nat :=
  ((es.map (·.lastLsn)).min?).getD 0

/-- Model of `Engines::max_last_lsn`. -/
def maxLastLsn (es : List EngineSt) : Nat :=
  ((es.map (·.lastLsn)).max?).getD 0

/-- Model of the per-engine dispatch in `Engines::recover`: the engine stored
under `eid`, if any, receives `write(lsn, batch)` when its `last_lsn < lsn`. -/
def writeEngine (es : List EngineSt) (eid lsn : Nat) (batch : List Nat) : List EngineSt :=
  es.map fun e =>
    if e.id = eid ∧ e.lastLsn < lsn then { e with applied := e.applied ++ [(lsn, batch)] }
    else e

/-- Model of `Engines::recover`: decode the batch, dispatch each sub-batch. -/
def enginesRecover (es : List EngineSt) (lsn : Nat) (batch : List Nat) :
    Option (List EngineSt) :=
  (decodeBatch batch).map fun pairs =>
    pairs.foldl (fun acc p => writeEngine acc p.1 lsn p.2) es

/-- One iteration of the record loop in `Recover::recover`. -/
def replayRecord (minLsn : Nat) (jpath : String) (cursor : Nat) (es : List EngineSt)
    (lsn : Nat) (batch : List Nat) : Outcome (Nat × List EngineSt) :=
  if lsn ≤ minLsn then .ok (cursor, es)
  else if lsn ≠ cursor + 1 then
    .err (.corrupted jpath
      ("unexpected LSN " ++ toString lsn ++ ", the previous LSN is " ++ toString cursor))
  else
    match enginesRecover es lsn batch with
    | none => .panicked "batch decode panicked"
    | some es2 => .ok (lsn, es2)

/-- Replay of all records of one journal file. -/
def replayRecords (minLsn : Nat) (jpath : String) :
    Nat × List EngineSt → List (Nat × List Nat) → Outcome (Nat × List EngineSt)
  | st, [] => .ok st
  | (cursor, es), (lsn, batch) :: rest =>
    match replayRecord minLsn jpath cursor es lsn batch with
    | .ok st2 => replayRecords minLsn jpath st2 rest
    | .err e => .err e
    | .panicked m => .panicked m

/-- Replay across the kept journals, in order. -/
def replayJournals (minLsn : Nat) (pathOf : Nat → String) :
    Nat × List EngineSt → List (Nat × List (Nat × List Nat)) → Outcome (Nat × List EngineSt)
  | st, [] => .ok st
  | st, (id, records) :: rest =>
    match replayRecords minLsn (pathOf id) st records with
    | .ok st2 => replayJournals minLsn pathOf st2 rest
    | .err e => .err e
    | .panicked m => .panicked m

/-- Result of a successful `Recover::recover`. -/
structure RecoverOk where
  lastLsn : Nat
  engines : List EngineSt
  deletedJournals : List Nat
deriving DecidableEq

/-- Kept journals with their contents, as selected by `journals_to_recover`. -/
def keptJournals (minLsn : Nat) (journals : List (Nat × List (Nat × List Nat))) :
    List (Nat × List (Nat × List Nat)) :=
  (journalsToRecover minLsn (journals.map (·.1))).map
    (fun id => (id, (assocGet journals id).getD []))

/-- Model of `Recover::recover`: select journals, replay them, check the final
cursor against the engines, delete the replayed journals. -/
def recoverModel (rootPath : String) (pathOf : Nat → String)
    (journals : List (Nat × List (Nat × List Nat))) (es : List EngineSt) :
    Outcome RecoverOk :=
  let minLsn := minLastLsn es
  let kept := keptJournals minLsn journals
  match replayJournals minLsn pathOf (minLsn, es) kept with
  | .ok (cursor, es2) =>
    if cursor < maxLastLsn es2 then
      .err (.corrupted rootPath
        ("the last LSN " ++ toString cursor ++
          " in journal files is less than the last LSN " ++ toString (maxLastLsn es2) ++
          " in engines, which means that some journal files are missing or corrupted, " ++
          "so we can not recover to a consistent state"))
    else .ok { lastLsn := cursor, engines := es2, deletedJournals := kept.map (·.1) }
  | .err e => .err e
  | .panicked m => .panicked m

/-- Name of the file `RootDir::create_journal(id)` creates (`Name::journal`). -/
def journalName (id : Nat) : String :=
  "journal-" ++ toString id

/-- Name of the fresh journal `Core::open` creates after recovery. -/
def openedJournalName (r : RecoverOk) : String :=
  journalName (r.lastLsn + 1)

/-- Model of `WriteSubmitter::next_lsn` (pre-increment) for the pipeline
created with `create_pipeline(last_lsn)`. -/
def nextLsn (lsn : Nat) : Nat × Nat :=
  (lsn + 1, lsn + 1)

/-- Payloads dispatched to engine `eid` from decoded batch pairs. -/
def payloadsFor (eid lsn : Nat) (pairs : List (Nat × List Nat)) : List (Nat × List Nat) :=
  (pairs.filter (fun p => p.1 = eid)).map (fun p => (lsn, p.2))

theorem dispatch_foldl_characterization (lsn : Nat) (pairs : List (Nat × List Nat))
    (es : List EngineSt) :
    pairs.foldl (fun acc p => writeEngine acc p.1 lsn p.2) es =
      es.map fun e =>
        if e.lastLsn < lsn then { e with applied := e.applied ++ payloadsFor e.id lsn pairs }
        else e := by
  induction pairs generalizing es with
  | nil =>
    simp only [List.foldl_nil, payloadsFor, List.filter_nil, List.map_nil, List.append_nil]
    conv_lhs => rw [← List.map_id es]
    refine List.map_congr_left fun e _ => ?_
    split <;> rfl
  | cons hd rest ih =>
    rw [List.foldl_cons, ih, writeEngine, List.map_map]
    refine List.map_congr_left fun e _ => ?_
    simp only [Function.comp_apply]
    by_cases hlt : e.lastLsn < lsn
    · by_cases hid : e.id = hd.1
      · simp only [hid, hlt, and_self, if_true, if_pos hlt]
        simp [payloadsFor, List.filter_cons, hid, List.append_assoc]
      · have : ¬(e.id = hd.1 ∧ e.lastLsn < lsn) := fun h => hid h.1
        simp only [this, if_false, if_pos hlt]
        have hne : ¬(hd.1 = e.id) := fun h => hid h.symm
        have hfil : (hd :: rest).filter (fun p => p.1 = e.id) =
            rest.filter (fun p => p.1 = e.id) := by
          simp only [List.filter_cons]
          simp [hne]
        simp [payloadsFor, hfil]
    · have : ¬(e.id = hd.1 ∧ e.lastLsn < lsn) := fun h => hlt h.2
      simp only [this, if_false, if_neg hlt]

/-- C1: a record with `lsn ≤ min_lsn` is skipped; a record with
`lsn > min_lsn` and `lsn ≠ cursor + 1` fails recovery with a `Corrupted`
error naming the journal and the exact message; otherwise the batch is
dispatched to each engine appearing in it whose `last_lsn < lsn`, and the
cursor moves to `lsn`. -/
theorem replay_record_characterization (minLsn : Nat) (jpath : String) (cursor : Nat)
    (es : List EngineSt) (lsn : Nat) (batch : List Nat) :
    (lsn ≤ minLsn → replayRecord minLsn jpath cursor es lsn batch = .ok (cursor, es)) ∧
    (minLsn < lsn → lsn ≠ cursor + 1 →
      replayRecord minLsn jpath cursor es lsn batch =
        .err (.corrupted jpath
          ("unexpected LSN " ++ toString lsn ++ ", the previous LSN is " ++
            toString cursor))) ∧
    (minLsn < lsn → lsn = cursor + 1 →
      ∀ pairs, decodeBatch batch = some pairs →
        replayRecord minLsn jpath cursor es lsn batch =
          .ok (lsn, es.map fun e =>
            if e.lastLsn < lsn then
              { e with applied := e.applied ++ payloadsFor e.id lsn pairs }
            else e)) := by
  refine ⟨fun hle => ?_, fun hgt hne => ?_, fun hgt heq pairs hdec => ?_⟩
  · simp [replayRecord, hle]
  · simp [replayRecord, Nat.not_le.mpr hgt, hne]
  · have hnle : ¬lsn ≤ minLsn := Nat.not_le.mpr hgt
    subst heq
    have henr : enginesRecover es (cursor + 1) batch =
        some (es.map fun e =>
          if e.lastLsn < cursor + 1 then
            { e with applied := e.applied ++ payloadsFor e.id (cursor + 1) pairs }
          else e) := by
      simp [enginesRecover, hdec, dispatch_foldl_characterization]
    unfold replayRecord
    rw [if_neg hnle, if_neg (by simp : ¬(cursor + 1 ≠ cursor + 1)), henr]

/-- Closed witness for `replay_record_characterization`. -/
theorem replay_record_characterization_witness :
    replayRecord 0 "journal-1" 0 [{ id := 2, lastLsn := 0, applied := [] }] 1 [2, 1, 9] =
      .ok (1, [{ id := 2, lastLsn := 0, applied := [(1, [9])] }]) := by
  have h := (replay_record_characterization 0 "journal-1" 0
      [{ id := 2, lastLsn := 0, applied := [] }] 1 [2, 1, 9]).2.2
    (by decide) rfl [(2, [9])] (by decide)
  rw [h]
  rfl

/-- C5: after the replay has drained all kept journals with final cursor
`cursor`, recovery fails with a `Corrupted` error when
`cursor < max(e.last_lsn)`; otherwise it deletes exactly the kept journals,
and `Core::open` then creates a fresh journal named `journal-<cursor+1>` and
a pipeline whose first assigned LSN is `cursor + 1`. -/
theorem recovery_final_check (rootPath : String) (pathOf : Nat → String)
    (journals : List (Nat × List (Nat × List Nat))) (es : List EngineSt)
    (cursor : Nat) (es2 : List EngineSt)
    (hrep : replayJournals (minLastLsn es) pathOf (minLastLsn es, es)
      (keptJournals (minLastLsn es) journals) = .ok (cursor, es2)) :
    (cursor < maxLastLsn es2 →
      ∃ msg, recoverModel rootPath pathOf journals es = .err (.corrupted rootPath msg)) ∧
    (maxLastLsn es2 ≤ cursor →
      recoverModel rootPath pathOf journals es =
        .ok ⟨cursor, es2, (keptJournals (minLastLsn es) journals).map (·.1)⟩ ∧
      openedJournalName ⟨cursor, es2, (keptJournals (minLastLsn es) journals).map (·.1)⟩ =
        "journal-" ++ toString (cursor + 1) ∧
      (nextLsn cursor).1 = cursor + 1) := by
  constructor
  · intro hlt
    refine ⟨"the last LSN " ++ toString cursor ++
      " in journal files is less than the last LSN " ++ toString (maxLastLsn es2) ++
      " in engines, which means that some journal files are missing or corrupted, " ++
      "so we can not recover to a consistent state", ?_⟩
    simp only [recoverModel, hrep]
    rw [if_pos hlt]
  · intro hge
    refine ⟨?_, rfl, rfl⟩
    simp only [recoverModel, hrep]
    rw [if_neg (Nat.not_lt.mpr hge)]

/-- Closed witness for `recovery_final_check`. -/
theorem recovery_final_check_witness :
    recoverModel "db" journalName [(1, [(1, [])])] [{ id := 7, lastLsn := 0, applied := [] }] =
      .ok { lastLsn := 1, engines := [{ id := 7, lastLsn := 0, applied := [] }],
            deletedJournals := [1] } :=
  ((recovery_final_check "db" journalName [(1, [(1, [])])]
      [{ id := 7, lastLsn := 0, applied := [] }] 1
      [{ id := 7, lastLsn := 0, applied := [] }] (by decide)).2 (by decide)).1

/-! ## Lock-free skip list (vbase-util/src/skip_list.rs), sequential model

Nodes are identified by their allocation index; `keys` maps a node id to its
decoded key.  The linked chain of next-pointers at each level is modelled as
the list of node ids in chain order (`chains l`), and the sentinel head is
`prev = none`.  In a sequential execution every CAS succeeds on the first
try, so `add` links the new node at the splice computed by `find_splice`,
and `random_height`'s CAS bump drives the list height to the maximum. -/

/-- `MAX_HEIGHT`. -/
def skipMaxHeight : Nat := 16

/-- Model of `SkipList` state. -/
structure SkipList (K : Type) where
  keys : List K
  chains : Nat → List Nat
  height : Nat

section SkipListModel

variable {K : Type} [LinearOrder K] [Inhabited K]

/-- The empty skip list (`SkipList::new`, height starts at 1). -/
def SkipList.empty (K : Type) : SkipList K :=
  { keys := [], chains := fun _ => [], height := 1 }

/-- Key stored in a node (`Node::cmp` decodes it from the node data). -/
def keyOf (st : SkipList K) (id : Nat) : K :=
  st.keys.getD id default

/-- Suffix of a chain strictly after node `prev` (`prev = none` is the head,
whose next pointer is the whole chain). -/
def chainAfter (chain : List Nat) : Option Nat → List Nat
  | none => chain
  | some p => (chain.dropWhile (fun x => x ≠ p)).tail

/-- Loop of `find_splice_at_level`: advance `prev` while the next node's key
is less than `k`; return the final `(prev, next)`. -/
def walkLevel (st : SkipList K) (k : K) : List Nat → Option Nat → Option Nat × Option Nat
  | [], prev => (prev, none)
  | id :: rest, prev =>
    if keyOf st id < k then walkLevel st k rest (some id)
    else (prev, some id)

/-- Model of `find_splice_at_level(k, start, level)`. -/
def findSpliceAtLevel (st : SkipList K) (k : K) (level : Nat) (prev : Option Nat) :
    Option Nat × Option Nat :=
  walkLevel st k (chainAfter (st.chains level) prev) prev

/-- Model of the loop of `SkipList::seek`: descend from the given level,
narrowing `prev`, and return `link.next` at level 0. -/
def seekFrom (st : SkipList K) (k : K) : Nat → Option Nat → Option Nat
  | 0, prev => (findSpliceAtLevel st k 0 prev).2
  | l + 1, prev => seekFrom st k l (findSpliceAtLevel st k (l + 1) prev).1

/-- Model of `SkipList::seek` (used by `SkipListIter::seek`). -/
def SkipList.seek (st : SkipList K) (k : K) : Option Nat :=
  seekFrom st k (st.height - 1) none

/-- Model of the loop of `find_splice`: the returned list has the splice for
level `i` at index `i` and covers levels `0..=l`. -/
def findSpliceFrom (st : SkipList K) (k : K) : Nat → Option Nat → List (Option Nat × Option Nat)
  | 0, prev => [findSpliceAtLevel st k 0 prev]
  | l + 1, prev =>
    let lk := findSpliceAtLevel st k (l + 1) prev
    findSpliceFrom st k l lk.1 ++ [lk]

/-- Model of `find_splice(k, height)`. -/
def findSplice (st : SkipList K) (k : K) (h : Nat) : List (Option Nat × Option Nat) :=
  findSpliceFrom st k (h - 1) none

/-- Link `id` right after node `p` in a chain (`prev.next := id`). -/
def insertAfterId : List Nat → Nat → Nat → List Nat
  | [], _, id => [id]
  | x :: rest, p, id => if x = p then x :: id :: rest else x :: insertAfterId rest p id

/-- Link `id` after `prev` in a chain (after the head when `prev = none`). -/
def insertAfter (chain : List Nat) (prev : Option Nat) (id : Nat) : List Nat :=
  match prev with
  | none => id :: chain
  | some p => insertAfterId chain p id

/-- Model of `SkipList::add` with rolled height `h`: bump the list height,
compute the splice, and link the new node at levels `0..h`. -/
def SkipList.add (st : SkipList K) (k : K) (h : Nat) : SkipList K :=
  let id := st.keys.length
  let splice := findSplice st k h
  { keys := st.keys ++ [k],
    chains := fun l =>
      if l < h then insertAfter (st.chains l) ((splice.getD l (none, none)).1) id
      else st.chains l,
    height := max st.height h }

/-- Skip list built by a sequence of `add` calls with given rolled heights. -/
def buildSkipList (ops : List (K × Nat)) : SkipList K :=
  ops.foldl (fun st p => st.add p.1 p.2) (SkipList.empty K)

/-- Invariant of skip lists reachable by sequences of insertions: every level
chain is sorted by key, every level is contained in the level below, chains
have no duplicate nodes, and all linked nodes are allocated. -/
structure SLInv (st : SkipList K) : Prop where
  sorted : ∀ l, (st.chains l).Pairwise (fun a b => keyOf st a ≤ keyOf st b)
  nested : ∀ l id, id ∈ st.chains (l + 1) → id ∈ st.chains l
  nodup : ∀ l, (st.chains l).Nodup
  inRange : ∀ l id, id ∈ st.chains l → id < st.keys.length

/-- A valid walk start at a level: the head, or a linked node with key `< k`. -/
def GoodPrev (st : SkipList K) (k : K) (l : Nat) : Option Nat → Prop
  | none => True
  | some p => p ∈ st.chains l ∧ keyOf st p < k

/-- Postcondition of `find_splice_at_level` at level `l`: the chain splits as
`c1 ++ c2` with all of `c1` below `k`, `prev` the last node of `c1`, `next`
the head of `c2`, and the head of `c2` not below `k`. -/
def SpliceOK (st : SkipList K) (k : K) (l : Nat) (lk : Option Nat × Option Nat) : Prop :=
  ∃ c1 c2, st.chains l = c1 ++ c2 ∧ (∀ x ∈ c1, keyOf st x < k) ∧
    lk.1 = c1.getLast? ∧ lk.2 = c2.head? ∧ ∀ x, c2.head? = some x → ¬keyOf st x < k

theorem getLast?_mem {α : Type} {l : List α} {a : α} (h : l.getLast? = some a) : a ∈ l := by
  obtain ⟨hne, heq⟩ := List.mem_getLast?_eq_getLast (l := l) (x := a) (by simp [h])
  exact heq ▸ List.getLast_mem hne

theorem getLast?_append_or {α : Type} (l1 l2 : List α) :
    (l1 ++ l2).getLast? = l2.getLast?.or l1.getLast? := by
  cases l2 with
  | nil => simp
  | cons b t =>
    rw [List.getLast?_append_cons]
    cases h : (b :: t).getLast? with
    | none => simp [getLast?_cons_or] at h
    | some x => rfl

theorem head?_dropWhile_not {α : Type} {p : α → Bool} (l : List α) {x : α}
    (h : (l.dropWhile p).head? = some x) : p x = false := by
  induction l with
  | nil => simp [List.dropWhile] at h
  | cons a t ih =>
    rw [List.dropWhile_cons] at h
    by_cases hp : p a = true
    · rw [if_pos hp] at h; exact ih h
    · rw [if_neg hp] at h
      simp only [List.head?_cons, Option.some.injEq] at h
      subst h
      simpa using hp

theorem dropWhile_append_of_all {α : Type} {p : α → Bool} {c1 c2 : List α}
    (h : ∀ x ∈ c1, p x = true) :
    (c1 ++ c2).dropWhile p = c2.dropWhile p := by
  induction c1 with
  | nil => rfl
  | cons a t ih =>
    rw [List.cons_append, List.dropWhile_cons, if_pos (h a (by simp))]
    exact ih fun x hx => h x (by simp [hx])

theorem walkLevel_eq (st : SkipList K) (k : K) (s : List Nat) (prev : Option Nat) :
    walkLevel st k s prev =
      ((s.takeWhile (fun id => decide (keyOf st id < k))).getLast?.or prev,
       (s.dropWhile (fun id => decide (keyOf st id < k))).head?) := by
  induction s generalizing prev with
  | nil => simp [walkLevel]
  | cons id rest ih =>
    by_cases h : keyOf st id < k
    · rw [walkLevel, if_pos h, ih (some id), List.takeWhile_cons, List.dropWhile_cons,
        if_pos (by simpa using h), if_pos (by simpa using h), getLast?_cons_or]
      congr 1
      cases (rest.takeWhile fun id => decide (keyOf st id < k)).getLast? <;> rfl
    · rw [walkLevel, if_neg h, List.takeWhile_cons, List.dropWhile_cons,
        if_neg (by simpa using h), if_neg (by simpa using h)]
      rfl

theorem dropWhile_ne_of_mem {chain : List Nat} {p : Nat} (hmem : p ∈ chain) :
    chain.dropWhile (fun x => x ≠ p) =
      p :: (chain.dropWhile (fun x => x ≠ p)).tail := by
  induction chain with
  | nil => simp at hmem
  | cons a t ih =>
    by_cases ha : a = p
    · subst ha
      rw [List.dropWhile_cons, if_neg (by simp)]
      rfl
    · rw [List.dropWhile_cons, if_pos (by simpa using ha)]
      have hpt : p ∈ t := by
        rcases List.mem_cons.mp hmem with h | h
        · exact absurd h.symm ha
        · exact h
      exact ih hpt

theorem chainAfter_split {chain : List Nat} {p : Nat} (hmem : p ∈ chain) :
    chain = chain.takeWhile (fun x => x ≠ p) ++ p :: chainAfter chain (some p) := by
  conv_lhs => rw [← List.takeWhile_append_dropWhile (p := fun x => x ≠ p) (l := chain)]
  rw [chainAfter]
  congr 1
  exact dropWhile_ne_of_mem hmem

theorem findSpliceAtLevel_ok (st : SkipList K) (k : K) (l : Nat) (prev : Option Nat)
    (inv : SLInv st) (hg : GoodPrev st k l prev) :
    SpliceOK st k l (findSpliceAtLevel st k l prev) := by
  cases prev with
  | none =>
    rw [findSpliceAtLevel, chainAfter, walkLevel_eq]
    refine ⟨(st.chains l).takeWhile (fun id => decide (keyOf st id < k)),
            (st.chains l).dropWhile (fun id => decide (keyOf st id < k)),
            (List.takeWhile_append_dropWhile _ _).symm, ?_, ?_, rfl, ?_⟩
    · intro x hx; simpa using List.mem_takeWhile_imp hx
    · simp
    · intro x hx
      simpa using head?_dropWhile_not _ hx
  | some p =>
    obtain ⟨hpmem, hplt⟩ := hg
    have hsplit := chainAfter_split hpmem
    set c0 := (st.chains l).takeWhile (fun x => x ≠ p) with hc0
    set t := chainAfter (st.chains l) (some p) with ht
    have hsort := inv.sorted l
    rw [findSpliceAtLevel, walkLevel_eq, ← ht]
    refine ⟨(c0 ++ [p]) ++ t.takeWhile (fun id => decide (keyOf st id < k)),
            t.dropWhile (fun id => decide (keyOf st id < k)), ?_, ?_, ?_, rfl, ?_⟩
    · rw [List.append_assoc, List.append_assoc]
      rw [hsplit]
      simp
    · intro x hx
      rcases List.mem_append.mp hx with hx1 | hx2
      · rcases List.mem_append.mp hx1 with hx0 | hxp
        · have hxmem : x ∈ st.chains l := by
            rw [hsplit]; exact List.mem_append_left _ (by simpa [hc0] using hx0)
          have hxr : keyOf st x ≤ keyOf st p := by
            rw [hsplit] at hsort
            exact (List.pairwise_append.mp hsort).2.2 x (by simpa [hc0] using hx0) p (by simp)
          exact lt_of_le_of_lt hxr hplt
        · have : x = p := by simpa using hxp
          exact this ▸ hplt
      · simpa using List.mem_takeWhile_imp hx2
    · rw [getLast?_append_or]
      have hcp : (c0 ++ [p]).getLast? = some p := by
        rw [getLast?_append_or]; rfl
      rw [hcp]
    · intro x hx
      simpa using head?_dropWhile_not _ hx

theorem spliceOK_good (st : SkipList K) (k : K) (l : Nat) (lk : Option Nat × Option Nat)
    (hok : SpliceOK st k l lk) : GoodPrev st k l lk.1 := by
  obtain ⟨c1, c2, hchain, hlt, hprev, _, _⟩ := hok
  cases hp : lk.1 with
  | none => trivial
  | some p =>
    rw [hp] at hprev
    have hpc1 : p ∈ c1 := getLast?_mem hprev.symm
    exact ⟨hchain ▸ List.mem_append_left _ hpc1, hlt p hpc1⟩

theorem goodPrev_down (st : SkipList K) (k : K) (l : Nat) (prev : Option Nat)
    (inv : SLInv st) (hg : GoodPrev st k (l + 1) prev) : GoodPrev st k l prev := by
  cases prev with
  | none => trivial
  | some p => exact ⟨inv.nested l p hg.1, hg.2⟩

theorem spliceOK_next (st : SkipList K) (k : K) (l : Nat) (lk : Option Nat × Option Nat)
    (hok : SpliceOK st k l lk) :
    lk.2 = ((st.chains l).dropWhile (fun id => decide (keyOf st id < k))).head? := by
  obtain ⟨c1, c2, hchain, hlt, _, hnext, hge⟩ := hok
  rw [hchain, dropWhile_append_of_all (fun x hx => decide_eq_true (hlt x hx)), hnext]
  cases c2 with
  | nil => rfl
  | cons x t =>
    have hx : ¬keyOf st x < k := hge x rfl
    rw [List.dropWhile_cons, if_neg (by simpa using hx)]

theorem seekFrom_eq (st : SkipList K) (k : K) (inv : SLInv st) :
    ∀ (l : Nat) (prev : Option Nat), GoodPrev st k l prev →
      seekFrom st k l prev =
        ((st.chains 0).dropWhile (fun id => decide (keyOf st id < k))).head? := by
  intro l
  induction l with
  | zero =>
    intro prev hg
    rw [seekFrom]
    exact spliceOK_next st k 0 _ (findSpliceAtLevel_ok st k 0 prev inv hg)
  | succ n ih =>
    intro prev hg
    rw [seekFrom]
    have hok := findSpliceAtLevel_ok st k (n + 1) prev inv hg
    exact ih _ (goodPrev_down st k n _ inv (spliceOK_good st k (n + 1) _ hok))

theorem findSpliceFrom_length (st : SkipList K) (k : K) :
    ∀ (l : Nat) (prev : Option Nat), (findSpliceFrom st k l prev).length = l + 1 := by
  intro l
  induction l with
  | zero => intro prev; rfl
  | succ n ih =>
    intro prev
    simp [findSpliceFrom, ih]

theorem findSpliceFrom_ok (st : SkipList K) (k : K) (inv : SLInv st) :
    ∀ (l : Nat) (prev : Option Nat), GoodPrev st k l prev →
      ∀ i ≤ l, SpliceOK st k i ((findSpliceFrom st k l prev).getD i (none, none)) := by
  intro l
  induction l with
  | zero =>
    intro prev hg i hi
    have : i = 0 := Nat.le_zero.mp hi
    subst this
    exact findSpliceAtLevel_ok st k 0 prev inv hg
  | succ n ih =>
    intro prev hg i hi
    rw [findSpliceFrom]
    have hok := findSpliceAtLevel_ok st k (n + 1) prev inv hg
    by_cases hi2 : i ≤ n
    · rw [List.getD_append _ _ _ _ (by rw [findSpliceFrom_length]; omega)]
      exact ih _ (goodPrev_down st k n _ inv (spliceOK_good st k (n + 1) _ hok)) i hi2
    · have hieq : i = n + 1 := by omega
      subst hieq
      rw [List.getD_append_right _ _ _ _ (by rw [findSpliceFrom_length]),
        findSpliceFrom_length]
      simpa using hok

theorem insertAfterId_split {c1 c2 : List Nat} {p id : Nat}
    (hlast : c1.getLast? = some p) (hnd : (c1 ++ c2).Nodup) :
    insertAfterId (c1 ++ c2) p id = c1 ++ id :: c2 := by
  induction c1 with
  | nil => simp at hlast
  | cons a t ih =>
    cases t with
    | nil =>
      have hap : a = p := by simpa using hlast
      subst hap
      simp [insertAfterId]
    | cons b s =>
      rw [List.getLast?_cons_cons] at hlast
      have hpmem : p ∈ b :: s := getLast?_mem hlast
      have hnd2 : a ∉ b :: s ++ c2 ∧ (b :: s ++ c2).Nodup := List.nodup_cons.mp hnd
      have hane : ¬a = p := fun hap => hnd2.1 (hap ▸ List.mem_append_left _ hpmem)
      rw [List.cons_append, insertAfterId, if_neg hane, ih hlast hnd2.2]
      rfl

theorem mem_insertAfterId {chain : List Nat} {p id x : Nat} :
    x ∈ insertAfterId chain p id ↔ x = id ∨ x ∈ chain := by
  induction chain with
  | nil => simp [insertAfterId]
  | cons a t ih =>
    rw [insertAfterId]
    by_cases hap : a = p
    · rw [if_pos hap]
      simp only [List.mem_cons, ih]
      tauto
    · rw [if_neg hap]
      simp only [List.mem_cons, ih]
      tauto

theorem mem_insertAfter {chain : List Nat} {prev : Option Nat} {id x : Nat} :
    x ∈ insertAfter chain prev id ↔ x = id ∨ x ∈ chain := by
  cases prev with
  | none => simp [insertAfter]
  | some p => simpa [insertAfter] using mem_insertAfterId

/-- Effect of `add` on one level below the rolled height: the chain splits at
the splice and the fresh node id is linked in between. -/
theorem add_chain_eq (st : SkipList K) (k : K) (h l : Nat) (inv : SLInv st)
    (hl : l < h) :
    ∃ c1 c2, st.chains l = c1 ++ c2 ∧ (∀ x ∈ c1, keyOf st x < k) ∧
      (∀ x, c2.head? = some x → ¬keyOf st x < k) ∧
      (st.add k h).chains l = c1 ++ st.keys.length :: c2 := by
  have hle : l ≤ h - 1 := by omega
  obtain ⟨c1, c2, hchain, hlt, hprev, hnext, hge⟩ :=
    findSpliceFrom_ok st k inv (h - 1) none trivial l hle
  refine ⟨c1, c2, hchain, hlt, hge, ?_⟩
  show (if l < h then
      insertAfter (st.chains l) (((findSplice st k h).getD l (none, none)).1) st.keys.length
    else st.chains l) = c1 ++ st.keys.length :: c2
  rw [if_pos hl]
  rw [findSplice]
  cases hc1 : c1.getLast? with
  | none =>
    have hc1nil : c1 = [] := List.getLast?_eq_none_iff.mp hc1
    subst hc1nil
    rw [hprev, hc1]
    simp only [insertAfter]
    rw [hchain]
    rfl
  | some p =>
    rw [hprev, hc1]
    simp only [insertAfter]
    rw [hchain]
    exact insertAfterId_split hc1 (hchain ▸ inv.nodup l)

theorem keyOf_extend_old (st : SkipList K) (k : K) (id : Nat)
    (hid : id < st.keys.length) :
    (st.keys ++ [k]).getD id default = keyOf st id := by
  rw [keyOf, List.getD_append _ _ _ _ hid]

theorem keyOf_extend_new (st : SkipList K) (k : K) :
    (st.keys ++ [k]).getD st.keys.length default = k := by
  rw [List.getD_append_right _ _ _ _ (le_refl _)]
  simp

theorem slInv_add (st : SkipList K) (k : K) (h : Nat) (inv : SLInv st) :
    SLInv (st.add k h) := by
  have hkeys : (st.add k h).keys = st.keys ++ [k] := rfl
  have hchains : ∀ l, ¬l < h → (st.add k h).chains l = st.chains l := by
    intro l hl
    show (if l < h then _ else st.chains l) = st.chains l
    rw [if_neg hl]
  have hkey_old : ∀ id, id < st.keys.length → keyOf (st.add k h) id = keyOf st id := by
    intro id hid
    rw [keyOf, hkeys]
    exact keyOf_extend_old st k id hid
  have hkey_new : keyOf (st.add k h) st.keys.length = k := by
    rw [keyOf, hkeys]
    exact keyOf_extend_new st k
  constructor
  · -- sorted
    intro l
    by_cases hl : l < h
    · obtain ⟨c1, c2, hchain, hlt, hge, hnew⟩ := add_chain_eq st k h l inv hl
      rw [hnew]
      have hsort : (c1 ++ c2).Pairwise (fun a b => keyOf st a ≤ keyOf st b) :=
        hchain ▸ inv.sorted l
      obtain ⟨hs1, hs2, hcross⟩ := List.pairwise_append.mp hsort
      have hmem1 : ∀ x ∈ c1, x < st.keys.length := fun x hx =>
        inv.inRange l x (hchain ▸ List.mem_append_left _ hx)
      have hmem2 : ∀ x ∈ c2, x < st.keys.length := fun x hx =>
        inv.inRange l x (hchain ▸ List.mem_append_right _ hx)
      have hc2ge : ∀ x ∈ c2, k ≤ keyOf st x := by
        intro x hx
        cases c2 with
        | nil => simp at hx
        | cons y t =>
          have hy : k ≤ keyOf st y := le_of_not_lt (hge y rfl)
          rcases List.mem_cons.mp hx with rfl | hxt
          · exact hy
          · exact le_trans hy (List.rel_of_pairwise_cons hs2 hxt)
      rw [List.pairwise_append]
      refine ⟨hs1.imp_of_mem ?_, ?_, ?_⟩
      · intro a b ha hb hab
        rw [hkey_old a (hmem1 a ha), hkey_old b (hmem1 b hb)]
        exact hab
      · rw [List.pairwise_cons]
        constructor
        · intro b hb
          rw [hkey_new, hkey_old b (hmem2 b hb)]
          exact hc2ge b hb
        · refine hs2.imp_of_mem ?_
          intro a b ha hb hab
          rw [hkey_old a (hmem2 a ha), hkey_old b (hmem2 b hb)]
          exact hab
      · intro a ha b hb
        rcases List.mem_cons.mp hb with rfl | hbc2
        · rw [hkey_old a (hmem1 a ha), hkey_new]
          exact le_of_lt (hlt a ha)
        · rw [hkey_old a (hmem1 a ha), hkey_old b (hmem2 b hbc2)]
          exact hcross a ha b hbc2
    · rw [hchains l hl]
      refine (inv.sorted l).imp_of_mem ?_
      intro a b ha hb hab
      rw [hkey_old a (inv.inRange l a ha), hkey_old b (inv.inRange l b hb)]
      exact hab
  · -- nested
    intro l id hid
    by_cases hl1 : l + 1 < h
    · have hl0 : l < h := by omega
      obtain ⟨d1, d2, hchainU, _, _, hnewU⟩ := add_chain_eq st k h (l + 1) inv hl1
      obtain ⟨c1, c2, hchainL, _, _, hnewL⟩ := add_chain_eq st k h l inv hl0
      rw [hnewU] at hid
      rw [hnewL]
      rcases List.mem_append.mp hid with hd1 | hd2
      · have : id ∈ st.chains (l + 1) := hchainU ▸ List.mem_append_left _ hd1
        have : id ∈ st.chains l := inv.nested l id this
        rw [hchainL] at this
        rcases List.mem_append.mp this with hcl | hcr
        · exact List.mem_append_left _ hcl
        · exact List.mem_append_right _ (List.mem_cons_of_mem _ hcr)
      · rcases List.mem_cons.mp hd2 with rfl | hd2t
        · exact List.mem_append_right _ (List.mem_cons_self _ _)
        · have : id ∈ st.chains (l + 1) := hchainU ▸ List.mem_append_right _ hd2t
          have : id ∈ st.chains l := inv.nested l id this
          rw [hchainL] at this
          rcases List.mem_append.mp this with hcl | hcr
          · exact List.mem_append_left _ hcl
          · exact List.mem_append_right _ (List.mem_cons_of_mem _ hcr)
    · rw [hchains (l + 1) hl1] at hid
      have hmem : id ∈ st.chains l := inv.nested l id hid
      by_cases hl0 : l < h
      · obtain ⟨c1, c2, hchainL, _, _, hnewL⟩ := add_chain_eq st k h l inv hl0
        rw [hnewL]
        rw [hchainL] at hmem
        rcases List.mem_append.mp hmem with hcl | hcr
        · exact List.mem_append_left _ hcl
        · exact List.mem_append_right _ (List.mem_cons_of_mem _ hcr)
      · rw [hchains l hl0]
        exact hmem
  · -- nodup
    intro l
    by_cases hl : l < h
    · obtain ⟨c1, c2, hchain, _, _, hnew⟩ := add_chain_eq st k h l inv hl
      rw [hnew, List.nodup_middle, List.nodup_cons]
      refine ⟨?_, hchain ▸ inv.nodup l⟩
      intro hmem
      have := inv.inRange l st.keys.length (hchain ▸ hmem)
      omega
    · rw [hchains l hl]
      exact inv.nodup l
  · -- inRange
    intro l id hid
    have hlen : (st.add k h).keys.length = st.keys.length + 1 := by
      rw [hkeys, List.length_append]
      rfl
    rw [hlen]
    by_cases hl : l < h
    · obtain ⟨c1, c2, hchain, _, _, hnew⟩ := add_chain_eq st k h l inv hl
      rw [hnew] at hid
      rcases List.mem_append.mp hid with hcl | hcr
      · have := inv.inRange l id (hchain ▸ List.mem_append_left _ hcl)
        omega
      · rcases List.mem_cons.mp hcr with rfl | hcrt
        · omega
        · have := inv.inRange l id (hchain ▸ List.mem_append_right _ hcrt)
          omega
    · rw [hchains l hl] at hid
      have := inv.inRange l id hid
      omega

theorem slInv_empty : SLInv (SkipList.empty K) := by
  constructor <;> intro l <;> simp [SkipList.empty]

theorem buildSkipList_inv (ops : List (K × Nat)) : SLInv (buildSkipList ops) := by
  rw [buildSkipList]
  have : ∀ (l : List (K × Nat)) (st : SkipList K), SLInv st →
      SLInv (l.foldl (fun st p => st.add p.1 p.2) st) := by
    intro l
    induction l with
    | nil => intro st hst; exact hst
    | cons p rest ih =>
      intro st hst
      exact ih _ (slInv_add st p.1 p.2 hst)
  exact this ops _ slInv_empty

/-- C7: on a skip list built by any sequence of insertions, `seek(k)`
positions the iterator at the first level-0 node whose key is `≥ k` (none if
no such node exists), and every splice computed during the descent satisfies
`prev.key < k ≤ next.key`. -/
theorem skiplist_seek_first_geq (ops : List (K × Nat)) (k : K)
    (hh : ∀ p ∈ ops, 1 ≤ p.2 ∧ p.2 ≤ skipMaxHeight) :
    SkipList.seek (buildSkipList ops) k =
      (((buildSkipList ops).chains 0).dropWhile
        (fun id => decide (keyOf (buildSkipList ops) id < k))).head? ∧
    ∀ i ≤ (buildSkipList ops).height - 1,
      (∀ p, ((findSplice (buildSkipList ops) k (buildSkipList ops).height).getD i
          (none, none)).1 = some p → keyOf (buildSkipList ops) p < k) ∧
      (∀ n, ((findSplice (buildSkipList ops) k (buildSkipList ops).height).getD i
          (none, none)).2 = some n → k ≤ keyOf (buildSkipList ops) n) := by
  have inv := buildSkipList_inv ops
  constructor
  · rw [SkipList.seek]
    exact seekFrom_eq _ k inv _ none trivial
  · intro i hi
    have hok := findSpliceFrom_ok (buildSkipList ops) k inv
      ((buildSkipList ops).height - 1) none trivial i hi
    rw [findSplice]
    obtain ⟨c1, c2, hchain, hlt, hprev, hnext, hge⟩ := hok
    constructor
    · intro p hp
      rw [hp] at hprev
      exact hlt p (getLast?_mem hprev.symm)
    · intro n hn
      rw [hn] at hnext
      exact le_of_not_lt (hge n hnext.symm)

/-- Closed witness for `skiplist_seek_first_geq`. -/
theorem skiplist_seek_first_geq_witness :
    SkipList.seek (buildSkipList [((5 : Nat), 1), (3, 2)]) 4 =
      (((buildSkipList [((5 : Nat), 1), (3, 2)]).chains 0).dropWhile
        (fun id => decide (keyOf (buildSkipList [((5 : Nat), 1), (3, 2)]) id < 4))).head? :=
  (skiplist_seek_first_geq [((5 : Nat), 1), (3, 2)] 4 (by decide)).1

end SkipListModel

/-! ## Block-framed journal file (vbase-file/src/journal.rs)

The file is a byte list.  The reader (`File`) keeps the unread file suffix,
the bytes of the last `read_until_end` chunk (`buffer`, whose length is the
code's `self.length`), the parse offset inside it, and the record assembly
buffer.  `read_until_end` fills the whole 1 MiB buffer except at end of
file, so a chunk is `take bufferSize` of the remaining file. -/

/-- `BLOCK_SIZE`. -/
def blockSize : Nat := 32 * 1024

/-- `BUFFER_SIZE`. -/
def bufferSize : Nat := 32 * blockSize

/-- `HEADER_SIZE`. -/
def headerSize : Nat := 7

/-- `FragmentKind`. -/
inductive FragmentKind where
  | full
  | first
  | middle
  | last
deriving DecidableEq

/-- Wire value of a fragment kind (`FragmentKind as u8`). -/
def FragmentKind.toByte : FragmentKind → Nat
  | .full => 1
  | .first => 2
  | .middle => 3
  | .last => 4

/-- Debug formatting of a fragment kind (`{kind:?}`). -/
def FragmentKind.debugStr : FragmentKind → String
  | .full => "Full"
  | .first => "First"
  | .middle => "Middle"
  | .last => "Last"

/-- Model of `From<u8> for FragmentKind`; `none` models the panic on any
other byte value. -/
def fragmentKindFrom? (b : Nat) : Option FragmentKind :=
  if b = 1 then some .full
  else if b = 2 then some .first
  else if b = 3 then some .middle
  else if b = 4 then some .last
  else none

/-- Model of `FragmentKind::checksum_with`. -/
def FragmentKind.checksumWith (k : FragmentKind) (data : List Nat) : Nat :=
  checksumCombined [k.toByte] data

/-- Hex digit character. -/
def hexDigit (n : Nat) : Char :=
  if n < 10 then Char.ofNat (48 + n) else Char.ofNat (87 + n)

/-- Hex digit characters of `n`, most significant first (16 digits of fuel). -/
def hexStrAux : Nat → Nat → List Char
  | 0, _ => []
  | fuel + 1, n => if n = 0 then [] else hexStrAux fuel (n / 16) ++ [hexDigit (n % 16)]

/-- Rust `{:#x}` formatting of an integer. -/
def hexStr (n : Nat) : String :=
  if n = 0 then "0x0" else "0x" ++ String.mk (hexStrAux 16 n)

/-- State of the journal file reader (`journal::File`). -/
structure JReader where
  path : String
  file : List Nat
  buffer : List Nat
  offset : Nat
  record : List Nat
deriving DecidableEq

/-- Outcome of `File::read_fragment`. -/
inductive FragOut where
  | ok (kind : FragmentKind)
  | eof
  | corrupted (msg : String)
  | panicked (msg : String)
deriving DecidableEq

/-- Header-and-data parse step of `File::read_fragment`, after the padding
skip and any refill: decode crc, size and kind, check bounds and checksum,
and append the fragment data to the record. -/
def parseFragment (s : JReader) : FragOut × JReader :=
  if s.buffer.length - s.offset < headerSize then
    (.corrupted "incomplete fragment", s)
  else
    let dec := s.buffer.drop s.offset
    let crc := leNum (dec.take 4)
    let size := leNum ((dec.drop 4).take 2)
    let kindB := (dec.drop 6).headD 0
    match fragmentKindFrom? kindB with
    | none => (.panicked ("invalid fragment kind " ++ toString kindB), s)
    | some kind =>
      let rest := dec.drop headerSize
      if rest.length < size then
        (.corrupted ("fragment size mismatch (expected " ++ toString size ++ ", got " ++
          toString rest.length ++ ")"), s)
      else
        let data := rest.take size
        let checksum := kind.checksumWith data
        if checksum ≠ crc then
          (.corrupted ("fragment checksum mismatch (expected " ++ hexStr crc ++ ", got " ++
            hexStr checksum ++ ")"), s)
        else
          (.ok kind,
            { s with record := s.record ++ data, offset := s.offset + headerSize + size })

/-- Padding skip at the head of `File::read_fragment`: when fewer than
`headerSize` bytes remain in the current block, skip them. -/
def skipPadding (s : JReader) : JReader :=
  if blockSize - s.offset % blockSize < headerSize then
    { s with offset := s.offset + (blockSize - s.offset % blockSize) }
  else s

/-- Refill-and-parse tail of `File::read_fragment`: when the buffer is
exhausted, read the next chunk from the file (end of file when it is empty),
then parse one fragment. -/
def refillParse (s1 : JReader) : FragOut × JReader :=
  if s1.buffer.length ≤ s1.offset then
    if (s1.file.take bufferSize).length = 0 then (.eof, s1)
    else
      parseFragment
        { s1 with buffer := s1.file.take bufferSize, file := s1.file.drop bufferSize,
                  offset := 0 }
  else parseFragment s1

/-- Model of `File::read_fragment`. -/
def readFragment (s : JReader) : FragOut × JReader :=
  refillParse (skipPadding s)

/-- Outcome of `File::read`. -/
inductive ReadOut where
  | record (bytes : List Nat)
  | eof
  | corrupted (name msg : String)
  | panicked (msg : String)
deriving DecidableEq

/-- Loop of `File::read` over fragments, with fuel (each iteration consumes
at least `headerSize` bytes of the remaining input, so the fuel used below
never runs out). -/
def readLoop : Nat → Bool → JReader → ReadOut × JReader
  | 0, _, s => (.panicked "out of fuel", s)
  | fuel + 1, isFirst, s =>
    match readFragment s with
    | (.eof, s1) => (.eof, s1)
    | (.corrupted m, s1) => (.corrupted s1.path m, s1)
    | (.panicked m, s1) => (.panicked m, s1)
    | (.ok kind, s1) =>
      match kind, isFirst with
      | .full, true => (.record s1.record, s1)
      | .first, true => readLoop fuel false s1
      | .middle, false => readLoop fuel false s1
      | .last, false => (.record s1.record, s1)
      | k, _ => (.corrupted s1.path ("unexpected fragment kind " ++ k.debugStr), s1)

/-- Bytes left to consume by the reader. -/
def JReader.remaining (s : JReader) : Nat :=
  (s.buffer.length - s.offset) + s.file.length

/-- Model of `File::read`: clear the record buffer and read one record. -/
def JReader.read (s : JReader) : ReadOut × JReader :=
  readLoop (s.remaining + 1) true { s with record := [] }

/-- Fresh reader over a file's bytes (`File::new`). -/
def JReader.init (path : String) (file : List Nat) : JReader :=
  { path := path, file := file, buffer := [], offset := 0, record := [] }

/-- Read `n` records in sequence; `none` when any read is not a record. -/
def readMany : Nat → JReader → Option (List (List Nat) × JReader)
  | 0, s => some ([], s)
  | n + 1, s =>
    match s.read with
    | (.record r, s1) => (readMany n s1).map fun p => (r :: p.1, p.2)
    | _ => none

/-! ### Layout of well-formed fragment streams

`layout pos frags` is the byte string a block-framed file holds from
absolute position `pos` on: each fragment is preceded by the zero padding
the writer inserts when fewer than `headerSize` bytes remain in the block,
and consists of a 7-byte header (crc32 over kind byte and data, the 16-bit
little-endian size, the kind byte) followed by its data. -/

/-- One fragment of a record. -/
structure Frag where
  kind : FragmentKind
  data : List Nat
deriving DecidableEq

/-- Encoded fragment: header then data (`build_fragment`). -/
def encFrag (f : Frag) : List Nat :=
  encU32 (f.kind.checksumWith f.data) ++ encU16 f.data.length ++ [f.kind.toByte] ++ f.data

/-- Padding inserted before a fragment starting at absolute position `pos`. -/
def padAt (pos : Nat) : Nat :=
  if blockSize - pos % blockSize < headerSize then blockSize - pos % blockSize else 0

/-- Absolute position right after a fragment laid out at `pos`. -/
def fragEnd (pos : Nat) (f : Frag) : Nat :=
  pos + padAt pos + headerSize + f.data.length

/-- Bytes of a fragment stream laid out from absolute position `pos`. -/
def layout : Nat → List Frag → List Nat
  | _, [] => []
  | pos, f :: rest => List.replicate (padAt pos) 0 ++ encFrag f ++ layout (fragEnd pos f) rest

/-- A fragment fits inside the block it starts in (as the writer guarantees). -/
def fragFits (pos : Nat) (f : Frag) : Prop :=
  headerSize + f.data.length ≤ blockSize - (pos + padAt pos) % blockSize

/-- Well-placed fragment stream from `pos`. -/
def WFFrags : Nat → List Frag → Prop
  | _, [] => True
  | pos, f :: rest => fragFits pos f ∧ WFFrags (fragEnd pos f) rest

/-- Chunk `q` of the file, as filled by the reader's `read_until_end`. -/
def chunkAt (A : List Nat) (q : Nat) : List Nat :=
  (A.drop (q * bufferSize)).take bufferSize

/-- The reader is positioned at absolute offset `pos` of file `A`: either the
fresh state before the first refill, or inside (or at the end of) chunk `q`. -/
def ReaderAt (A : List Nat) (pos : Nat) (s : JReader) : Prop :=
  (s.buffer = [] ∧ s.offset = 0 ∧ s.file = A ∧ pos = 0) ∨
  (∃ q, s.buffer = chunkAt A q ∧ s.file = A.drop ((q + 1) * bufferSize) ∧
    s.offset = pos - q * bufferSize ∧ q * bufferSize ≤ pos ∧
    pos ≤ q * bufferSize + (chunkAt A q).length)

theorem encFrag_length (f : Frag) : (encFrag f).length = headerSize + f.data.length := by
  simp [encFrag, encU32, encU16, headerSize]
  omega

theorem fragmentKindFrom?_toByte (k : FragmentKind) :
    fragmentKindFrom? k.toByte = some k := by
  cases k <;> rfl

theorem checksumWith_lt (k : FragmentKind) (data : List Nat) :
    k.checksumWith data < 2 ^ 32 := by
  rw [FragmentKind.checksumWith, checksumCombined]
  exact crc32_lt _

theorem drop_take_swap {α : Type} (l : List α) (n m : Nat) :
    (l.take n).drop m = (l.drop m).take (n - m) := by
  by_cases h : m ≤ n
  · have := List.take_drop m (n - m) l
    rw [Nat.add_sub_cancel' h] at this
    exact this.symm
  · have h1 : (l.take n).drop m = [] := by
      apply List.drop_eq_nil_of_le
      calc (l.take n).length ≤ n := by simpa using List.length_take_le n l
        _ ≤ m := by omega
    rw [h1, Nat.sub_eq_zero_of_le (by omega), List.take_zero]

/-- Parse step on a buffer whose remainder from the offset starts with an
encoded fragment. -/
theorem parseFragment_spec (s : JReader) (f : Frag) (t2 : List Nat)
    (hdec : s.buffer.drop s.offset = encFrag f ++ t2)
    (hsz : f.data.length < 2 ^ 16) :
    parseFragment s = (.ok f.kind,
      { s with record := s.record ++ f.data,
               offset := s.offset + headerSize + f.data.length }) := by
  have hlen : (s.buffer.drop s.offset).length = headerSize + f.data.length + t2.length := by
    rw [hdec, List.length_append, encFrag_length]
  have hofflt : ¬(s.buffer.length - s.offset < headerSize) := by
    rw [List.length_drop] at hlen
    omega
  have e1 : s.buffer.drop s.offset =
      encU32 (f.kind.checksumWith f.data) ++
        (encU16 f.data.length ++ ([f.kind.toByte] ++ (f.data ++ t2))) := by
    rw [hdec, encFrag]
    simp [List.append_assoc]
  have h4 : (s.buffer.drop s.offset).take 4 = encU32 (f.kind.checksumWith f.data) := by
    rw [e1]
    exact List.take_left' (by simp [encU32])
  have h4d : (s.buffer.drop s.offset).drop 4 =
      encU16 f.data.length ++ ([f.kind.toByte] ++ (f.data ++ t2)) := by
    rw [e1]
    exact List.drop_left' (by simp [encU32])
  have h2 : ((s.buffer.drop s.offset).drop 4).take 2 = encU16 f.data.length := by
    rw [h4d]
    exact List.take_left' (by simp [encU16])
  have h6 : (s.buffer.drop s.offset).drop 6 = [f.kind.toByte] ++ (f.data ++ t2) := by
    have e2 : s.buffer.drop s.offset =
        (encU32 (f.kind.checksumWith f.data) ++ encU16 f.data.length) ++
          ([f.kind.toByte] ++ (f.data ++ t2)) := by
      rw [e1]
      simp [List.append_assoc]
    rw [e2]
    exact List.drop_left' (by simp [encU32, encU16])
  have h7 : (s.buffer.drop s.offset).drop headerSize = f.data ++ t2 := by
    have e3 : s.buffer.drop s.offset =
        (encU32 (f.kind.checksumWith f.data) ++ encU16 f.data.length ++ [f.kind.toByte]) ++
          (f.data ++ t2) := by
      rw [e1]
      simp [List.append_assoc]
    rw [e3]
    exact List.drop_left' (by simp [encU32, encU16, headerSize])
  have hcrc : leNum ((s.buffer.drop s.offset).take 4) = f.kind.checksumWith f.data := by
    rw [h4]
    exact leNum_encU32 _ (checksumWith_lt f.kind f.data)
  have hsizeEq : leNum (((s.buffer.drop s.offset).drop 4).take 2) = f.data.length := by
    rw [h2]
    exact leNum_encU16 _ hsz
  have hkind : ((s.buffer.drop s.offset).drop 6).headD 0 = f.kind.toByte := by
    rw [h6]
    rfl
  unfold parseFragment
  rw [if_neg hofflt]
  simp only [hcrc, hsizeEq, hkind, h7, fragmentKindFrom?_toByte]
  rw [if_neg (by simp), if_neg (by simp)]
  rw [List.take_left' rfl]

/-- Parse inside a chunk, with the fragment entirely within the chunk. -/
theorem parse_in_chunk (A : List Nat) (q pos1 : Nat) (s2 : JReader) (f : Frag)
    (tail : List Nat)
    (hb : s2.buffer = chunkAt A q) (hf : s2.file = A.drop ((q + 1) * bufferSize))
    (ho : s2.offset = pos1 - q * bufferSize) (hq : q * bufferSize ≤ pos1)
    (hdrop1 : A.drop pos1 = encFrag f ++ tail)
    (hin : pos1 + headerSize + f.data.length ≤ q * bufferSize + (chunkAt A q).length)
    (hsz : f.data.length < 2 ^ 16) :
    parseFragment s2 = (.ok f.kind,
      { s2 with record := s2.record ++ f.data,
                offset := s2.offset + headerSize + f.data.length }) ∧
    ReaderAt A (pos1 + headerSize + f.data.length)
      { s2 with record := s2.record ++ f.data,
                offset := s2.offset + headerSize + f.data.length } := by
  have hchunklen : (chunkAt A q).length ≤ bufferSize := by
    rw [chunkAt]
    simpa using List.length_take_le bufferSize _
  have hWge : headerSize + f.data.length ≤ bufferSize - (pos1 - q * bufferSize) := by
    omega
  have hdecomp : s2.buffer.drop s2.offset =
      encFrag f ++ tail.take (bufferSize - (pos1 - q * bufferSize) -
        (headerSize + f.data.length)) := by
    rw [hb, ho, chunkAt, drop_take_swap, List.drop_drop]
    have hpos : q * bufferSize + (pos1 - q * bufferSize) = pos1 := by omega
    rw [hpos, hdrop1, List.take_append_eq_append_take,
      List.take_all_of_le (by rw [encFrag_length]; omega)]
    congr 2
    rw [encFrag_length]
  constructor
  · exact parseFragment_spec s2 f _ hdecomp hsz
  · right
    refine ⟨q, by simpa using hb, by simpa using hf, ?_, by omega, by simpa using hin⟩
    simp only [ho]
    omega

theorem readerAt_remaining (A : List Nat) (p : Nat) (s : JReader)
    (hra : ReaderAt A p s) : s.remaining = A.length - p := by
  rcases hra with ⟨hb, ho, hf, hp⟩ | ⟨q, hb, hf, ho, hq1, hq2⟩
  · rw [JReader.remaining, hb, ho, hf, hp]
    simp
  · rw [JReader.remaining, hb, hf, ho]
    have hL : (chunkAt A q).length = min bufferSize (A.length - q * bufferSize) := by
      simp [chunkAt]
    rw [List.length_drop]
    have hmul : (q + 1) * bufferSize = q * bufferSize + bufferSize := by ring
    rw [hL] at hq2 ⊢
    omega

theorem chunkAt_length (A : List Nat) (q : Nat) :
    (chunkAt A q).length = min bufferSize (A.length - q * bufferSize) := by
  simp [chunkAt]

theorem blockSize_eq : blockSize = 32768 := rfl

theorem bufferSize_eq : bufferSize = 1048576 := rfl

theorem headerSize_eq : headerSize = 7 := rfl

theorem padAt_eq (pos : Nat) :
    padAt pos = if 32768 - pos % 32768 < 7 then 32768 - pos % 32768 else 0 := by
  rw [padAt, blockSize_eq, headerSize_eq]

/-- Reading one well-placed fragment succeeds and advances to its end. -/
theorem readFragment_layout (A : List Nat) (pos : Nat) (s : JReader) (f : Frag)
    (tail : List Nat) (hra : ReaderAt A pos s)
    (hdrop : A.drop pos = List.replicate (padAt pos) 0 ++ (encFrag f ++ tail))
    (hfit : fragFits pos f) :
    ∃ s', readFragment s = (.ok f.kind, s') ∧ ReaderAt A (fragEnd pos f) s' ∧
      s'.record = s.record ++ f.data ∧ s'.path = s.path := by
  have hAlen : A.length = pos + (padAt pos + 7 + f.data.length) + tail.length := by
    have hc := congrArg List.length hdrop
    rw [List.length_drop, List.length_append, List.length_append, List.length_replicate,
      encFrag_length, headerSize_eq] at hc
    omega
  have hdrop1 : A.drop (pos + padAt pos) = encFrag f ++ tail := by
    have hdd : A.drop (pos + padAt pos) = (A.drop pos).drop (padAt pos) := by
      rw [List.drop_drop]
    rw [hdd, hdrop]
    exact List.drop_left' (by simp)
  have hfit' : 7 + f.data.length ≤ 32768 - (pos + padAt pos) % 32768 := by
    rw [fragFits, blockSize_eq, headerSize_eq] at hfit
    exact hfit
  have hsz : f.data.length < 2 ^ 16 := by omega
  have hfragEnd : fragEnd pos f = pos + padAt pos + 7 + f.data.length := by
    rw [fragEnd, headerSize_eq]
  rcases hra with ⟨hb, ho, hf, hp⟩ | ⟨q, hb, hf, ho, hq1, hq2⟩
  · -- fresh reader: pos = 0, the first refill happens now
    subst hp
    have hpad0 : padAt 0 = 0 := by rw [padAt_eq]; norm_num
    have hdropA : A = encFrag f ++ tail := by simpa using hdrop1
    have hskip : skipPadding s = s := by
      rw [skipPadding, ho, blockSize_eq, headerSize_eq]
      norm_num
    have hnonempty : ¬(A.take bufferSize).length = 0 := by
      rw [List.length_take, bufferSize_eq]
      omega
    have hread : readFragment s = parseFragment
        { s with buffer := A.take bufferSize, file := A.drop bufferSize, offset := 0 } := by
      rw [readFragment, hskip, refillParse, if_pos (by rw [hb, ho]; simp), hf,
        if_neg hnonempty]
    have hpc := parse_in_chunk A 0 0
      { s with buffer := A.take bufferSize, file := A.drop bufferSize, offset := 0 }
      f tail (by simp [chunkAt]) (by simp) (by simp) (by simp)
      (by simpa using hdropA)
      (by
        rw [chunkAt_length]
        have h1 : 32768 ≤ bufferSize := by rw [bufferSize_eq]; norm_num
        rw [headerSize_eq]
        omega)
      hsz
    obtain ⟨hp1, hp2⟩ := hpc
    refine ⟨_, hread.trans hp1, ?_, rfl, rfl⟩
    rw [hfragEnd, hpad0]
    simpa [headerSize_eq] using hp2
  · -- reader inside (or at the end of) chunk q
    have hL : (chunkAt A q).length = min 1048576 (A.length - q * 1048576) := by
      rw [chunkAt_length, bufferSize_eq]
    rw [bufferSize_eq] at hq1 ho hf hq2
    have hposlt : pos < A.length := by omega
    have hqA : q * 1048576 ≤ A.length := by omega
    have hLcases : (chunkAt A q).length = 1048576 ∨
        (q * 1048576 + (chunkAt A q).length = A.length ∧
          (chunkAt A q).length ≤ 1048576) := by
      rw [hL, Nat.min_def]
      by_cases hm : 1048576 ≤ A.length - q * 1048576
      · left
        rw [if_pos hm]
      · right
        rw [if_neg hm]
        omega
    have hq32 : q * 1048576 % 32768 = 0 := by omega
    have hofmod : (pos - q * 1048576) % 32768 = pos % 32768 := by omega
    have hpadv : (padAt pos = 32768 - pos % 32768 ∧ 32768 - pos % 32768 < 7) ∨
        padAt pos = 0 := by
      rw [padAt_eq]
      by_cases hcond : 32768 - pos % 32768 < 7
      · left; rw [if_pos hcond]; exact ⟨rfl, hcond⟩
      · right; rw [if_neg hcond]
    have hpos1_le : pos + padAt pos ≤ q * 1048576 + (chunkAt A q).length := by
      rcases hpadv with ⟨hpv, hpc7⟩ | hpv
      · -- padding rounds pos up to its block end
        rcases hLcases with hLc | hLc
        · -- full chunk, whose end is a multiple of the block size
          have h5 : (q * 1048576 + 1048576) % 32768 = 0 := by omega
          rw [hLc]
          rw [hLc] at hq2
          omega
        · -- last chunk: the chunk end is the file end
          omega
      · rw [hpv]
        omega
    -- the state after the padding skip
    obtain ⟨s1, hs1b, hs1f, hs1o, hs1r, hs1p, hskip⟩ :
        ∃ s1 : JReader, s1.buffer = chunkAt A q ∧
          s1.file = A.drop ((q + 1) * 1048576) ∧
          s1.offset = pos + padAt pos - q * 1048576 ∧
          s1.record = s.record ∧ s1.path = s.path ∧ skipPadding s = s1 := by
      rw [skipPadding, blockSize_eq, headerSize_eq, ho, hofmod]
      by_cases hcond : 32768 - pos % 32768 < 7
      · refine ⟨{ s with offset := pos - q * 1048576 + (32768 - pos % 32768) },
          hb, hf, ?_, rfl, rfl, by rw [if_pos hcond]⟩
        show pos - q * 1048576 + (32768 - pos % 32768) = pos + padAt pos - q * 1048576
        rw [padAt_eq, if_pos hcond]
        omega
      · refine ⟨s, hb, hf, ?_, rfl, rfl, by rw [if_neg hcond]⟩
        rw [ho, padAt_eq, if_neg hcond]
        omega
    by_cases hrefill : s1.buffer.length ≤ s1.offset
    · -- the padded position is exactly the end of a full chunk: refill
      have hrefill2 : (chunkAt A q).length ≤ pos + padAt pos - q * 1048576 := by
        rw [hs1b, hs1o] at hrefill
        exact hrefill
      have hpos1eq : pos + padAt pos = q * 1048576 + (chunkAt A q).length := by
        omega
      have hLfull : (chunkAt A q).length = 1048576 := by
        rcases hLcases with hLc | ⟨hLc1, hLc2⟩
        · exact hLc
        · omega
      have hpos1buf : pos + padAt pos = (q + 1) * 1048576 := by
        rw [hpos1eq, hLfull]
        ring
      have hchunk1 : s1.file.take bufferSize = chunkAt A (q + 1) := by
        rw [hs1f, chunkAt, bufferSize_eq]
      have hnonempty : ¬(s1.file.take bufferSize).length = 0 := by
        have hlt : (q + 1) * 1048576 < A.length := by omega
        rw [hchunk1, chunkAt_length, bufferSize_eq, Nat.min_def]
        split <;> omega
      have hread : readFragment s = parseFragment
          { s1 with buffer := s1.file.take bufferSize, file := s1.file.drop bufferSize,
                    offset := 0 } := by
        rw [readFragment, hskip, refillParse, if_pos hrefill, if_neg hnonempty]
      have hpc := parse_in_chunk A (q + 1) (pos + padAt pos)
        { s1 with buffer := s1.file.take bufferSize, file := s1.file.drop bufferSize,
                  offset := 0 }
        f tail hchunk1
        (by
          show s1.file.drop bufferSize = A.drop ((q + 1 + 1) * bufferSize)
          rw [hs1f, List.drop_drop, bufferSize_eq]
          have h9 : (q + 1) * 1048576 + 1048576 = (q + 1 + 1) * 1048576 := by ring
          rw [h9])
        (by
          show (0 : Nat) = pos + padAt pos - (q + 1) * bufferSize
          rw [bufferSize_eq]
          omega)
        (by rw [bufferSize_eq]; omega)
        hdrop1
        (by
          rw [chunkAt_length, bufferSize_eq, headerSize_eq, Nat.min_def]
          split <;> omega)
        hsz
      obtain ⟨hp1, hp2⟩ := hpc
      refine ⟨_, hread.trans hp1, ?_,
        by show s1.record ++ f.data = s.record ++ f.data; rw [hs1r],
        by show s1.path = s.path; exact hs1p⟩
      rw [hfragEnd]
      simpa [headerSize_eq] using hp2
    · -- the fragment is parsed inside the current chunk
      have hread : readFragment s = parseFragment s1 := by
        rw [readFragment, hskip, refillParse, if_neg hrefill]
      have hrefill2 : ¬(chunkAt A q).length ≤ pos + padAt pos - q * 1048576 := by
        rw [hs1b, hs1o] at hrefill
        exact hrefill
      have hin : pos + padAt pos + headerSize + f.data.length ≤
          q * 1048576 + (chunkAt A q).length := by
        rw [headerSize_eq]
        rcases hLcases with hLc | ⟨hLc1, hLc2⟩
        · have h3 : (q * 1048576 + 1048576) % 32768 = 0 := by omega
          rw [hLc] at hrefill2 ⊢
          omega
        · omega
      have hpc := parse_in_chunk A q (pos + padAt pos) s1 f tail hs1b
        (by rw [bufferSize_eq]; exact hs1f)
        (by rw [bufferSize_eq]; exact hs1o)
        (by rw [bufferSize_eq]; omega) hdrop1 (by rwa [bufferSize_eq]) hsz
      obtain ⟨hp1, hp2⟩ := hpc
      refine ⟨_, hread.trans hp1, ?_,
        by show s1.record ++ f.data = s.record ++ f.data; rw [hs1r],
        by show s1.path = s.path; exact hs1p⟩
      rw [hfragEnd]
      simpa [headerSize_eq] using hp2

theorem skipPadding_buffer (s : JReader) : (skipPadding s).buffer = s.buffer := by
  rw [skipPadding]
  split <;> rfl

theorem skipPadding_file (s : JReader) : (skipPadding s).file = s.file := by
  rw [skipPadding]
  split <;> rfl

theorem skipPadding_offset_ge (s : JReader) : s.offset ≤ (skipPadding s).offset := by
  rw [skipPadding]
  split
  · exact Nat.le_add_right _ _
  · exact le_refl _

/-- Past the end of the data, `read_fragment` reports end of file. -/
theorem readFragment_eof (A : List Nat) (pos : Nat) (s : JReader)
    (hra : ReaderAt A pos s) (hend : A.length ≤ pos) :
    ∃ s', readFragment s = (.eof, s') := by
  rcases hra with ⟨hb, ho, hf, hp⟩ | ⟨q, hb, hf, ho, hq1, hq2⟩
  · have hA : A = [] := by
      have hz : A.length = 0 := by omega
      exact List.length_eq_zero.mp hz
    have hle : (skipPadding s).buffer.length ≤ (skipPadding s).offset := by
      rw [skipPadding_buffer, hb]
      simp
    have hz : ((skipPadding s).file.take bufferSize).length = 0 := by
      rw [skipPadding_file, hf, hA]
      simp
    exact ⟨skipPadding s, by rw [readFragment, refillParse, if_pos hle, if_pos hz]⟩
  · have hLle : (chunkAt A q).length ≤ A.length - q * bufferSize := by
      rw [chunkAt_length]
      exact Nat.min_le_right _ _
    have hLM : (chunkAt A q).length ≤ bufferSize := by
      rw [chunkAt_length]
      exact Nat.min_le_left _ _
    have hle : (skipPadding s).buffer.length ≤ (skipPadding s).offset := by
      refine le_trans ?_ (skipPadding_offset_ge s)
      rw [skipPadding_buffer, hb, ho]
      exact le_trans hLle (Nat.sub_le_sub_right hend _)
    have hz : ((skipPadding s).file.take bufferSize).length = 0 := by
      rw [skipPadding_file, hf]
      have hdn : A.drop ((q + 1) * bufferSize) = [] := by
        refine List.drop_eq_nil_of_le ?_
        rw [bufferSize_eq] at hq2 hLM ⊢
        omega
      rw [hdn]
      simp
    exact ⟨skipPadding s, by rw [readFragment, refillParse, if_pos hle, if_pos hz]⟩

theorem drop_after_frag (A : List Nat) (pos : Nat) (f : Frag) (rest : List Nat)
    (hdrop : A.drop pos = List.replicate (padAt pos) 0 ++ (encFrag f ++ rest)) :
    A.drop (fragEnd pos f) = rest := by
  have h1 : A.drop (fragEnd pos f) =
      (A.drop pos).drop (padAt pos + headerSize + f.data.length) := by
    rw [List.drop_drop, fragEnd]
    congr 1
    omega
  rw [h1, hdrop, ← List.append_assoc]
  refine List.drop_left' ?_
  rw [List.length_append, List.length_replicate, encFrag_length]
  omega

/-- End position of a fragment stream laid out from `pos`. -/
def fragsEnd : Nat → List Frag → Nat
  | pos, [] => pos
  | pos, f :: rest => fragsEnd (fragEnd pos f) rest

theorem layout_append (fs gs : List Frag) : ∀ pos,
    layout pos (fs ++ gs) = layout pos fs ++ layout (fragsEnd pos fs) gs := by
  induction fs with
  | nil => intro pos; simp [layout, fragsEnd]
  | cons f rest ih => intro pos; simp [layout, fragsEnd, ih, List.append_assoc]

theorem wfFrags_append (fs gs : List Frag) : ∀ pos,
    WFFrags pos (fs ++ gs) ↔ WFFrags pos fs ∧ WFFrags (fragsEnd pos fs) gs := by
  induction fs with
  | nil => intro pos; simp [WFFrags, fragsEnd]
  | cons f rest ih => intro pos; simp [WFFrags, fragsEnd, ih, and_assoc]

theorem length_le_layout_length (fs : List Frag) : ∀ pos,
    fs.length ≤ (layout pos fs).length := by
  induction fs with
  | nil => intro pos; simp [layout]
  | cons f rest ih =>
    intro pos
    rw [layout]
    simp only [List.length_append, List.length_cons, List.length_replicate, encFrag_length]
    have hr := ih (fragEnd pos f)
    have h7 : headerSize = 7 := rfl
    omega

instance decidableFragFits (pos : Nat) (f : Frag) : Decidable (fragFits pos f) :=
  decidable_of_iff (headerSize + f.data.length ≤ blockSize - (pos + padAt pos) % blockSize)
    (by rw [fragFits])

instance decidableWFFrags : (pos : Nat) → (fs : List Frag) → Decidable (WFFrags pos fs)
  | _, [] => isTrue trivial
  | pos, f :: rest =>
    have : Decidable (WFFrags (fragEnd pos f) rest) := decidableWFFrags _ rest
    decidable_of_iff (fragFits pos f ∧ WFFrags (fragEnd pos f) rest) (by rw [WFFrags])

/-- Consuming a run of well-placed `Middle` fragments inside the `read` loop:
their data accumulates on the record buffer and the loop goes on. -/
theorem readLoop_middles (ms : List (List Nat)) :
    ∀ (A : List Nat) (pos : Nat) (s : JReader) (tail : List Nat) (fuel : Nat),
    ReaderAt A pos s →
    A.drop pos = layout pos (ms.map fun d => Frag.mk .middle d) ++ tail →
    WFFrags pos (ms.map fun d => Frag.mk .middle d) →
    ∃ s', readLoop (ms.length + fuel) false s = readLoop fuel false s' ∧
      ReaderAt A (fragsEnd pos (ms.map fun d => Frag.mk .middle d)) s' ∧
      A.drop (fragsEnd pos (ms.map fun d => Frag.mk .middle d)) = tail ∧
      s'.record = s.record ++ ms.flatten ∧ s'.path = s.path := by
  induction ms with
  | nil =>
    intro A pos s tail fuel hra hdrop hwf
    refine ⟨s, by simp, hra, ?_, by simp, rfl⟩
    simpa [layout] using hdrop
  | cons m rest ih =>
    intro A pos s tail fuel hra hdrop hwf
    simp only [List.map_cons, WFFrags] at hwf
    have hdrop' : A.drop pos = List.replicate (padAt pos) 0 ++
        (encFrag (Frag.mk .middle m) ++
          (layout (fragEnd pos (Frag.mk .middle m)) (rest.map fun d => Frag.mk .middle d) ++
            tail)) := by
      rw [hdrop]
      simp only [List.map_cons, layout, List.append_assoc]
    obtain ⟨s1, hrf, hra1, hrec1, hpath1⟩ :=
      readFragment_layout A pos s (Frag.mk .middle m) _ hra hdrop' hwf.1
    have hdrop1 := drop_after_frag A pos (Frag.mk .middle m) _ hdrop'
    obtain ⟨s', hloop, hra', hdropEnd, hrec', hpath'⟩ :=
      ih A (fragEnd pos (Frag.mk .middle m)) s1 tail fuel hra1 hdrop1 hwf.2
    have hlen : (m :: rest).length + fuel = (rest.length + fuel) + 1 := by
      rw [List.length_cons]
      omega
    have hstep : readLoop ((rest.length + fuel) + 1) false s =
        readLoop (rest.length + fuel) false s1 := by
      rw [readLoop, hrf]
    refine ⟨s', ?_, ?_, ?_, ?_, hpath'.trans hpath1⟩
    · rw [hlen]
      exact hstep.trans hloop
    · simpa only [List.map_cons, fragsEnd] using hra'
    · simpa only [List.map_cons, fragsEnd] using hdropEnd
    · rw [hrec', hrec1, List.flatten_cons, List.append_assoc]

/-- The fragment sequences `read` accepts as one complete record: a single
`Full` fragment, or `First`, then `Middle`s, then `Last`. -/
def RecFrags (fs : List Frag) (r : List Nat) : Prop :=
  fs = [Frag.mk .full r] ∨
  ∃ (d0 : List Nat) (mid : List (List Nat)) (dl : List Nat),
    fs = Frag.mk .first d0 ::
      ((mid.map fun d => Frag.mk .middle d) ++ [Frag.mk .last dl]) ∧
    r = d0 ++ mid.flatten ++ dl

theorem fragsEnd_append (fs gs : List Frag) : ∀ pos,
    fragsEnd pos (fs ++ gs) = fragsEnd (fragsEnd pos fs) gs := by
  induction fs with
  | nil => intro pos; simp [fragsEnd]
  | cons f rest ih => intro pos; simp [fragsEnd, ih]

/-- The `read` loop consumes one complete well-placed record and returns its
bytes. -/
theorem read_record_at (fs : List Frag) (r : List Nat) (A : List Nat) (pos : Nat)
    (s : JReader) (tail : List Nat) (fuel : Nat)
    (hra : ReaderAt A pos s) (hrec : RecFrags fs r)
    (hdrop : A.drop pos = layout pos fs ++ tail) (hwf : WFFrags pos fs)
    (hfuel : fs.length + 1 ≤ fuel) (hrecord : s.record = []) :
    ∃ s', readLoop fuel true s = (.record r, s') ∧ ReaderAt A (fragsEnd pos fs) s' ∧
      A.drop (fragsEnd pos fs) = tail ∧ s'.path = s.path := by
  rcases hrec with hfull | ⟨d0, mid, dl, hshape, hr⟩
  · subst hfull
    obtain ⟨f, rfl⟩ : ∃ f, fuel = f + 1 := ⟨fuel - 1, by omega⟩
    have hdrop' : A.drop pos = List.replicate (padAt pos) 0 ++
        (encFrag (Frag.mk .full r) ++ tail) := by
      rw [hdrop]
      simp [layout, List.append_assoc]
    simp only [WFFrags] at hwf
    obtain ⟨s1, hrf, hra1, hrec1, hpath1⟩ :=
      readFragment_layout A pos s (Frag.mk .full r) _ hra hdrop' hwf.1
    have hrecval : s1.record = r := by
      rw [hrec1, hrecord]
      simp
    have hstep : readLoop (f + 1) true s = (.record s1.record, s1) := by
      rw [readLoop, hrf]
    refine ⟨s1, ?_, hra1, drop_after_frag A pos _ _ hdrop', hpath1⟩
    rw [hstep, hrecval]
  · subst hshape
    have hlen : (Frag.mk .first d0 ::
        ((mid.map fun d => Frag.mk .middle d) ++ [Frag.mk .last dl])).length =
        mid.length + 2 := by
      simp
    obtain ⟨f, rfl⟩ : ∃ f, fuel = f + 1 := ⟨fuel - 1, by omega⟩
    have hffuel : mid.length + 2 ≤ f := by
      rw [hlen] at hfuel
      omega
    have hdrop' : A.drop pos = List.replicate (padAt pos) 0 ++
        (encFrag (Frag.mk .first d0) ++
          (layout (fragEnd pos (Frag.mk .first d0))
            ((mid.map fun d => Frag.mk .middle d) ++ [Frag.mk .last dl]) ++ tail)) := by
      rw [hdrop]
      simp only [layout, List.append_assoc]
    simp only [WFFrags] at hwf
    obtain ⟨s1, hrf, hra1, hrec1, hpath1⟩ :=
      readFragment_layout A pos s (Frag.mk .first d0) _ hra hdrop' hwf.1
    have hstep : readLoop (f + 1) true s = readLoop f false s1 := by
      rw [readLoop, hrf]
    have hdrop1 := drop_after_frag A pos (Frag.mk .first d0) _ hdrop'
    have hdropm : A.drop (fragEnd pos (Frag.mk .first d0)) =
        layout (fragEnd pos (Frag.mk .first d0)) (mid.map fun d => Frag.mk .middle d) ++
          (layout (fragsEnd (fragEnd pos (Frag.mk .first d0))
            (mid.map fun d => Frag.mk .middle d)) [Frag.mk .last dl] ++ tail) := by
      rw [hdrop1, layout_append, List.append_assoc]
    obtain ⟨hwfm, hwfl⟩ := (wfFrags_append _ _ _).mp hwf.2
    obtain ⟨s2, hloopm, hra2, hdrop2, hrec2, hpath2⟩ :=
      readLoop_middles mid A (fragEnd pos (Frag.mk .first d0)) s1 _
        (f - mid.length) hra1 hdropm hwfm
    have hfsplit : f = mid.length + (f - mid.length) := by omega
    obtain ⟨g, hg⟩ : ∃ g, f - mid.length = g + 1 := ⟨f - mid.length - 1, by omega⟩
    have hdropl : A.drop (fragsEnd (fragEnd pos (Frag.mk .first d0))
        (mid.map fun d => Frag.mk .middle d)) = List.replicate
          (padAt (fragsEnd (fragEnd pos (Frag.mk .first d0))
            (mid.map fun d => Frag.mk .middle d))) 0 ++
          (encFrag (Frag.mk .last dl) ++ tail) := by
      rw [hdrop2]
      simp [layout, List.append_assoc]
    simp only [WFFrags] at hwfl
    obtain ⟨s3, hrfl, hra3, hrec3, hpath3⟩ :=
      readFragment_layout A _ s2 (Frag.mk .last dl) _ hra2 hdropl hwfl.1
    have hstepl : readLoop (g + 1) false s2 = (.record s3.record, s3) := by
      rw [readLoop, hrfl]
    have hrecval : s3.record = r := by
      rw [hrec3, hrec2, hrec1, hrecord, hr]
      simp
    refine ⟨s3, ?_, ?_, ?_, (hpath3.trans hpath2).trans hpath1⟩
    · rw [hstep, hfsplit, hloopm, hg, hstepl, hrecval]
    · simpa only [fragsEnd, fragsEnd_append] using hra3
    · have hde := drop_after_frag A _ (Frag.mk .last dl) _ hdropl
      simpa only [fragsEnd, fragsEnd_append] using hde

/-- Successive `read` calls return successively laid-out complete records. -/
theorem readMany_records (recs : List (List Frag × List Nat)) :
    ∀ (A : List Nat) (pos : Nat) (s : JReader) (tail : List Nat),
    ReaderAt A pos s →
    (∀ pr ∈ recs, RecFrags pr.1 pr.2) →
    A.drop pos = layout pos (recs.map Prod.fst).flatten ++ tail →
    WFFrags pos (recs.map Prod.fst).flatten →
    ∃ s', readMany recs.length s = some (recs.map Prod.snd, s') ∧
      ReaderAt A (fragsEnd pos (recs.map Prod.fst).flatten) s' ∧
      A.drop (fragsEnd pos (recs.map Prod.fst).flatten) = tail ∧ s'.path = s.path := by
  induction recs with
  | nil =>
    intro A pos s tail hra hrec hdrop hwf
    refine ⟨s, rfl, hra, ?_, rfl⟩
    simpa [layout] using hdrop
  | cons pr rest ih =>
    intro A pos s tail hra hrec hdrop hwf
    have hflat : ((pr :: rest).map Prod.fst).flatten =
        pr.1 ++ (rest.map Prod.fst).flatten := by
      simp
    rw [hflat] at hdrop hwf
    have hdrop1 : A.drop pos = layout pos pr.1 ++
        (layout (fragsEnd pos pr.1) (rest.map Prod.fst).flatten ++ tail) := by
      rw [hdrop, layout_append, List.append_assoc]
    obtain ⟨hwf1, hwf2⟩ := (wfFrags_append _ _ _).mp hwf
    have hra0 : ReaderAt A pos { s with record := [] } := hra
    have hfuel : pr.1.length + 1 ≤ s.remaining + 1 := by
      have hrem := readerAt_remaining A pos s hra
      have hdlen := congrArg List.length hdrop1
      rw [List.length_drop, List.length_append] at hdlen
      have hlay := length_le_layout_length pr.1 pos
      omega
    obtain ⟨s1, hloop, hra1, hdropm, hpath1⟩ :=
      read_record_at pr.1 pr.2 A pos { s with record := [] } _ (s.remaining + 1)
        hra0 (hrec pr (by simp)) hdrop1 hwf1 hfuel rfl
    have hread : s.read = (.record pr.2, s1) := hloop
    obtain ⟨s', hmany, hra', hdropEnd, hpath'⟩ :=
      ih A (fragsEnd pos pr.1) s1 tail hra1
        (fun pr' hm => hrec pr' (by simp [hm])) hdropm hwf2
    refine ⟨s', ?_, ?_, ?_, hpath'.trans hpath1⟩
    · have hstep : readMany (rest.length + 1) s =
          (readMany rest.length s1).map fun p => (pr.2 :: p.1, p.2) := by
        rw [readMany, hread]
      show readMany (rest.length + 1) s = _
      rw [hstep, hmany]
      simp
    · rw [hflat, fragsEnd_append]
      exact hra'
    · rw [hflat, fragsEnd_append]
      exact hdropEnd

/-- C9: if a journal file ends cleanly at a fragment boundary in the middle of
a multi-fragment record — after any complete records, a `First` fragment and
some `Middle` fragments are laid out but no `Last` follows before end of
file — then `read` returns the complete records and the next `read` reports
end of file, silently discarding the partial record instead of returning a
`Corrupted` error. -/
theorem journal_clean_eof_discards_partial_record (p : String)
    (recs : List (List Frag × List Nat)) (d0 : List Nat) (mid : List (List Nat))
    (hrec : ∀ pr ∈ recs, RecFrags pr.1 pr.2)
    (hwf : WFFrags 0 ((recs.map Prod.fst).flatten ++
      (Frag.mk .first d0 :: mid.map fun d => Frag.mk .middle d))) :
    ∃ s', readMany recs.length (JReader.init p
        (layout 0 ((recs.map Prod.fst).flatten ++
          (Frag.mk .first d0 :: mid.map fun d => Frag.mk .middle d)))) =
      some (recs.map Prod.snd, s') ∧ (JReader.read s').1 = .eof := by
  obtain ⟨hwfF, hwfP⟩ := (wfFrags_append _ _ _).mp hwf
  have hinit : ReaderAt (layout 0 ((recs.map Prod.fst).flatten ++
      (Frag.mk .first d0 :: mid.map fun d => Frag.mk .middle d))) 0
      (JReader.init p (layout 0 ((recs.map Prod.fst).flatten ++
        (Frag.mk .first d0 :: mid.map fun d => Frag.mk .middle d)))) :=
    Or.inl ⟨rfl, rfl, rfl, rfl⟩
  have hdrop0 : (layout 0 ((recs.map Prod.fst).flatten ++
      (Frag.mk .first d0 :: mid.map fun d => Frag.mk .middle d))).drop 0 =
      layout 0 (recs.map Prod.fst).flatten ++
        layout (fragsEnd 0 (recs.map Prod.fst).flatten)
          (Frag.mk .first d0 :: mid.map fun d => Frag.mk .middle d) := by
    rw [List.drop_zero, layout_append]
  obtain ⟨s', hmany, hraF, hdropF, hpathF⟩ :=
    readMany_records recs _ 0 _ _ hinit hrec hdrop0 hwfF
  refine ⟨s', hmany, ?_⟩
  simp only [WFFrags] at hwfP
  have hdropF' : (layout 0 ((recs.map Prod.fst).flatten ++
      (Frag.mk .first d0 :: mid.map fun d => Frag.mk .middle d))).drop
        (fragsEnd 0 (recs.map Prod.fst).flatten) =
      List.replicate (padAt (fragsEnd 0 (recs.map Prod.fst).flatten)) 0 ++
        (encFrag (Frag.mk .first d0) ++
          layout (fragEnd (fragsEnd 0 (recs.map Prod.fst).flatten) (Frag.mk .first d0))
            (mid.map fun d => Frag.mk .middle d)) := by
    rw [hdropF]
    simp only [layout, List.append_assoc]
  have hra0 : ReaderAt (layout 0 ((recs.map Prod.fst).flatten ++
      (Frag.mk .first d0 :: mid.map fun d => Frag.mk .middle d)))
      (fragsEnd 0 (recs.map Prod.fst).flatten) { s' with record := [] } := hraF
  obtain ⟨s1, hrf1, hra1, hrec1, hpath1⟩ :=
    readFragment_layout _ _ { s' with record := [] } (Frag.mk .first d0) _ hra0 hdropF' hwfP.1
  have hdrop1 := drop_after_frag _ _ (Frag.mk .first d0) _ hdropF'
  have hrem : mid.length + 1 ≤ s'.remaining := by
    have hr := readerAt_remaining _ _ s' hraF
    have hd := congrArg List.length hdropF
    rw [List.length_drop] at hd
    have hlay := length_le_layout_length
      (Frag.mk .first d0 :: mid.map fun d => Frag.mk .middle d)
      (fragsEnd 0 (recs.map Prod.fst).flatten)
    simp only [List.length_cons, List.length_map] at hlay
    omega
  obtain ⟨g, hg⟩ : ∃ g, s'.remaining - mid.length = g + 1 :=
    ⟨s'.remaining - mid.length - 1, by omega⟩
  obtain ⟨s2, hloopm, hra2, hdrop2, hrec2, hpath2⟩ :=
    readLoop_middles mid _ (fragEnd (fragsEnd 0 (recs.map Prod.fst).flatten)
        (Frag.mk .first d0)) s1 [] (g + 1) hra1
      (by rw [List.append_nil]; exact hdrop1) hwfP.2
  have hend : (layout 0 ((recs.map Prod.fst).flatten ++
      (Frag.mk .first d0 :: mid.map fun d => Frag.mk .middle d))).length ≤
      fragsEnd (fragEnd (fragsEnd 0 (recs.map Prod.fst).flatten) (Frag.mk .first d0))
        (mid.map fun d => Frag.mk .middle d) := by
    have hd := congrArg List.length hdrop2
    rw [List.length_drop] at hd
    simp at hd
    omega
  obtain ⟨s3, heof⟩ := readFragment_eof _ _ s2 hra2 hend
  have hstep3 : readLoop (g + 1) false s2 = (.eof, s3) := by
    rw [readLoop, heof]
  have hstep1 : readLoop (s'.remaining + 1) true { s' with record := [] } =
      readLoop s'.remaining false s1 := by
    rw [readLoop, hrf1]
  have hread : JReader.read s' = (.eof, s3) := by
    show readLoop (s'.remaining + 1) true { s' with record := [] } = (.eof, s3)
    rw [hstep1, show s'.remaining = mid.length + (g + 1) by omega, hloopm, hstep3]
  rw [hread]

/-- Closed witness for `journal_clean_eof_discards_partial_record`. -/
theorem journal_clean_eof_discards_partial_record_witness :
    ∃ s', readMany [([Frag.mk FragmentKind.full [5]], [5])].length (JReader.init "j"
        (layout 0 (([([Frag.mk FragmentKind.full [5]], [5])].map Prod.fst).flatten ++
          (Frag.mk .first [1] :: [[2]].map fun d => Frag.mk .middle d)))) =
      some ([([Frag.mk FragmentKind.full [5]], [5])].map Prod.snd, s') ∧
      (JReader.read s').1 = .eof :=
  journal_clean_eof_discards_partial_record "j" [([Frag.mk FragmentKind.full [5]], [5])]
    [1] [[2]]
    (by
      intro pr hpr
      rw [List.mem_singleton] at hpr
      subst hpr
      exact Or.inl rfl)
    (by decide)

theorem intact_kind_byte_reads_record :
    (JReader.read (JReader.init "j" (layout 0 [Frag.mk .full [97]]))).1 = .record [97] := by
  decide

theorem set_kind_byte_keeps_length :
    ((layout 0 [Frag.mk .full [97]]).set 6 5).length =
      (layout 0 [Frag.mk .full [97]]).length := by
  decide

theorem kind_byte_at_six :
    (layout 0 [Frag.mk .full [97]])[6]? = some 1 := by
  decide

theorem set_kind_byte_read_panics :
    (JReader.read (JReader.init "j" ((layout 0 [Frag.mk .full [97]]).set 6 5))).1 =
      .panicked "invalid fragment kind 5" := by
  decide

/-- C3: corrupting a single on-disk fragment byte outside the length field
does not always yield a `Corrupted` error: flipping the kind byte (byte 6 of
a fragment, not in the 2-byte length field at bytes 4–5) to an invalid value
makes `FragmentKind::from` panic ("invalid fragment kind 5") before the
checksum is validated, while the uncorrupted file reads back fine. -/
theorem corrupt_kind_byte_panics :
    (JReader.read (JReader.init "j" (layout 0 [Frag.mk .full [97]]))).1 = .record [97] ∧
    ((layout 0 [Frag.mk .full [97]]).set 6 5).length =
      (layout 0 [Frag.mk .full [97]]).length ∧
    (layout 0 [Frag.mk .full [97]])[6]? = some 1 ∧
    (JReader.read (JReader.init "j" ((layout 0 [Frag.mk .full [97]]).set 6 5))).1 =
      .panicked "invalid fragment kind 5" :=
  ⟨intact_kind_byte_reads_record, set_kind_byte_keeps_length, kind_byte_at_six,
    set_kind_byte_read_panics⟩

/-! ## Journal file writer (vbase-file/src/journal.rs, `FileWriter`)

The buffer is a byte list of fixed length `BUFFER_SIZE`; a slice store that
would run past it models the Rust index panic as `none`. -/

/-- State of the journal file writer (`FileWriter`); `fileData` is what has
been written to the underlying file, so `file.offset()` is its length. -/
structure WState where
  fileData : List Nat
  buffer : List Nat
  offset : Nat
  fragStart : Nat
  fragEnd : Nat
  isFirstFragment : Bool
deriving DecidableEq

/-- Outcome of a writer operation: `panicked` models an index or assertion
panic; `outOfFuel` is an artifact of the fueled loop. -/
inductive WRes where
  | ok (s : WState)
  | panicked (msg : String)
  | outOfFuel
deriving DecidableEq

/-- Store `v` at `l[start..start + v.length]`; `none` models the slice panic
when the range runs past the buffer. -/
def setRange (l : List Nat) (start : Nat) (v : List Nat) : Option (List Nat) :=
  if start + v.length ≤ l.length then
    some (l.take start ++ v ++ l.drop (start + v.length))
  else none

/-- `FileWriter::flush`: assert no started fragment, write the pending buffer
range out, and realign the offset inside the last block. -/
def wflush (s : WState) : WRes :=
  if s.fragStart < s.fragEnd then .panicked "cannot flush with started fragment"
  else if s.offset < s.fragStart then
    .ok { s with
      fileData := s.fileData ++ (s.buffer.drop s.offset).take (s.fragStart - s.offset),
      offset := (s.fileData.length + (s.fragStart - s.offset)) % blockSize,
      fragStart := (s.fileData.length + (s.fragStart - s.offset)) % blockSize,
      fragEnd := (s.fileData.length + (s.fragStart - s.offset)) % blockSize }
  else .ok s

/-- Padding step of `FileWriter::start_fragment`. -/
def padBlock (s : WState) : Option WState :=
  if blockSize - s.fragStart % blockSize < headerSize then
    (setRange s.buffer s.fragStart
      (List.replicate (blockSize - s.fragStart % blockSize) 0)).map fun b =>
        { s with buffer := b,
                 fragStart := s.fragStart + (blockSize - s.fragStart % blockSize) }
  else some s

/-- Buffer-full flush step of `FileWriter::start_fragment`. -/
def flushIfFull (s1 : WState) : WRes :=
  if s1.fragStart = s1.buffer.length then wflush s1 else .ok s1

/-- `FileWriter::start_fragment`. -/
def startFragment (s : WState) : WRes :=
  match padBlock s with
  | none => .panicked "slice index out of bounds"
  | some s1 =>
    match flushIfFull s1 with
    | .ok s2 => .ok { s2 with fragEnd := s2.fragStart + headerSize }
    | .panicked msg => .panicked msg
    | .outOfFuel => .outOfFuel

/-- Fragment kind chosen by `FileWriter::build_fragment`. -/
def buildKind (isFirst isLast : Bool) : FragmentKind :=
  match isFirst, isLast with
  | true, true => .full
  | true, false => .first
  | false, true => .last
  | false, false => .middle

/-- Data bytes of the writer's current fragment. -/
def fragData (s : WState) : List Nat :=
  (s.buffer.drop (s.fragStart + headerSize)).take (s.fragEnd - (s.fragStart + headerSize))

/-- Header bytes of the writer's current fragment (crc32, `len as u16`, kind). -/
def fragHeader (s : WState) (isLast : Bool) : List Nat :=
  encU32 ((buildKind s.isFirstFragment isLast).checksumWith (fragData s)) ++
    encU16 (fragData s).length ++ [(buildKind s.isFirstFragment isLast).toByte]

/-- `FileWriter::build_fragment`: write the header in front of the fragment
data and close the fragment. -/
def buildFragment (s : WState) (isLast : Bool) : WRes :=
  if s.fragStart + headerSize ≤ s.fragEnd ∧ s.fragEnd ≤ s.buffer.length then
    match setRange s.buffer s.fragStart (fragHeader s isLast) with
    | none => .panicked "slice index out of bounds"
    | some b => .ok { s with buffer := b, fragStart := s.fragEnd, isFirstFragment := isLast }
  else .panicked "slice index out of bounds"

/-- One buffer store of `FileWriter::append`: copy the next chunk of `data`
(limited by the block holding the fragment end) after the fragment end. -/
def appendChunk (data : List Nat) (s1 : WState) : WRes :=
  match setRange s1.buffer s1.fragEnd
      (data.take (min data.length (blockSize - s1.fragEnd % blockSize))) with
  | none => .panicked "slice index out of bounds"
  | some b =>
    .ok { s1 with buffer := b,
                  fragEnd := s1.fragEnd +
                    min data.length (blockSize - s1.fragEnd % blockSize) }

/-- Loop of `FileWriter::append`, with fuel (each iteration consumes at least
one byte of `data`, so `data.length + 1` is always enough). -/
def appendLoop : Nat → List Nat → WState → WRes
  | 0, _, _ => .outOfFuel
  | fuel + 1, data, s =>
    match (if s.fragEnd ≤ s.fragStart then startFragment s else .ok s) with
    | .ok s1 =>
      match appendChunk data s1 with
      | .ok s2 =>
        if data.length ≤ min data.length (blockSize - s1.fragEnd % blockSize) then .ok s2
        else
          match buildFragment s2 false with
          | .ok s3 => appendLoop fuel
              (data.drop (min data.length (blockSize - s1.fragEnd % blockSize))) s3
          | .panicked msg => .panicked msg
          | .outOfFuel => .outOfFuel
      | .panicked msg => .panicked msg
      | .outOfFuel => .outOfFuel
    | .panicked msg => .panicked msg
    | .outOfFuel => .outOfFuel

/-- `FileWriter::append` / `RecordWriter::append`. -/
def wappend (data : List Nat) (s : WState) : WRes :=
  appendLoop (data.length + 1) data s

/-- `RecordWriter::finish`. -/
def wfinish (s : WState) : WRes :=
  match buildFragment s true with
  | .ok s1 => wflush s1
  | r => r

/-- Fresh writer over an empty file (`FileWriter::new`). -/
def WState.init : WState :=
  { fileData := [], buffer := List.replicate bufferSize 0, offset := 0,
    fragStart := 0, fragEnd := 0, isFirstFragment := true }

/-- Write one record given as its appended parts, then finish it. -/
def writeRecordParts : List (List Nat) → WState → WRes
  | [], s => wfinish s
  | d :: rest, s =>
    match wappend d s with
    | .ok s1 => writeRecordParts rest s1
    | r => r

theorem setRange_length (l : List Nat) (start : Nat) (v b : List Nat)
    (h : setRange l start v = some b) : b.length = l.length := by
  rw [setRange] at h
  split at h
  case isTrue hc =>
    cases h
    rw [List.length_append, List.length_append, List.length_take, List.length_drop,
      Nat.min_def]
    split <;> omega
  case isFalse hc => cases h

theorem appendChunk_ok (data : List Nat) (s1 : WState)
    (hlen : s1.fragEnd + min data.length (blockSize - s1.fragEnd % blockSize) ≤
      s1.buffer.length) :
    ∃ b, appendChunk data s1 =
        .ok { s1 with buffer := b,
                      fragEnd := s1.fragEnd +
                        min data.length (blockSize - s1.fragEnd % blockSize) } ∧
      b.length = s1.buffer.length := by
  have ht : (data.take (min data.length (blockSize - s1.fragEnd % blockSize))).length =
      min data.length (blockSize - s1.fragEnd % blockSize) := by
    rw [List.length_take]
    omega
  have hcond : s1.fragEnd +
      (data.take (min data.length (blockSize - s1.fragEnd % blockSize))).length ≤
      s1.buffer.length := by
    rw [ht]
    exact hlen
  have hsr : setRange s1.buffer s1.fragEnd
      (data.take (min data.length (blockSize - s1.fragEnd % blockSize))) =
      some (s1.buffer.take s1.fragEnd ++
        data.take (min data.length (blockSize - s1.fragEnd % blockSize)) ++
        s1.buffer.drop (s1.fragEnd +
          (data.take (min data.length (blockSize - s1.fragEnd % blockSize))).length)) := by
    rw [setRange, if_pos hcond]
  rw [appendChunk, hsr]
  exact ⟨_, rfl, setRange_length _ _ _ _ hsr⟩

theorem buildFragment_ok (s : WState) (isLast : Bool)
    (h1 : s.fragStart + headerSize ≤ s.fragEnd) (h2 : s.fragEnd ≤ s.buffer.length) :
    ∃ b, buildFragment s isLast =
        .ok { s with buffer := b, fragStart := s.fragEnd, isFirstFragment := isLast } ∧
      b.length = s.buffer.length := by
  have hh : (fragHeader s isLast).length = 7 := by
    simp [fragHeader, encU32, encU16]
  have hcond : s.fragStart + (fragHeader s isLast).length ≤ s.buffer.length := by
    rw [hh]
    rw [headerSize_eq] at h1
    omega
  have hsr : setRange s.buffer s.fragStart (fragHeader s isLast) =
      some (s.buffer.take s.fragStart ++ fragHeader s isLast ++
        s.buffer.drop (s.fragStart + (fragHeader s isLast).length)) := by
    rw [setRange, if_pos hcond]
  rw [buildFragment, if_pos ⟨h1, h2⟩, hsr]
  exact ⟨_, rfl, setRange_length _ _ _ _ hsr⟩

/-- `FileWriter::append` filling blocks `k..31` of the buffer exactly: each
iteration fills the rest of the current block, and the data runs out exactly
at the end of the buffer, leaving the final fragment open with its end at
`BUFFER_SIZE`. -/
theorem appendLoop_blocks (m : Nat) : ∀ (k : Nat) (b d : List Nat) (fb : Bool) (fuel : Nat),
    k + m = 32 → 1 ≤ m → b.length = bufferSize → d.length = m * 32761 →
    d.length + 1 ≤ fuel →
    ∃ b', b'.length = bufferSize ∧
      appendLoop fuel d ⟨[], b, 0, k * 32768, k * 32768, fb⟩ =
        .ok ⟨[], b', 0, 31 * 32768, 1048576, if m = 1 then fb else false⟩ := by
  induction m with
  | zero =>
    intro k b d fb fuel hk hm hb hd hfuel
    exact absurd hm (by omega)
  | succ m ih =>
    intro k b d fb fuel hk hm hb hd hfuel
    have hk31 : k ≤ 31 := by omega
    obtain ⟨f, rfl⟩ : ∃ f, fuel = f + 1 := ⟨fuel - 1, by omega⟩
    have h1 : padBlock ⟨[], b, 0, k * 32768, k * 32768, fb⟩ =
        some ⟨[], b, 0, k * 32768, k * 32768, fb⟩ := by
      simp only [padBlock, blockSize_eq, headerSize_eq, Nat.mul_mod_left]
      norm_num
    have h2 : flushIfFull ⟨[], b, 0, k * 32768, k * 32768, fb⟩ =
        .ok ⟨[], b, 0, k * 32768, k * 32768, fb⟩ := by
      simp only [flushIfFull, hb, bufferSize_eq]
      rw [if_neg (by omega)]
    have h3 : startFragment ⟨[], b, 0, k * 32768, k * 32768, fb⟩ =
        .ok ⟨[], b, 0, k * 32768, k * 32768 + 7, fb⟩ := by
      simp only [startFragment, h1, h2, headerSize_eq]
    have hmin : min d.length (blockSize - (k * 32768 + 7) % blockSize) = 32761 := by
      rw [blockSize_eq]
      have hm7 : (k * 32768 + 7) % 32768 = 7 := by omega
      rw [hm7]
      omega
    obtain ⟨b1, hchunk, hb1⟩ := appendChunk_ok d ⟨[], b, 0, k * 32768, k * 32768 + 7, fb⟩
      (by
        show k * 32768 + 7 + min d.length (blockSize - (k * 32768 + 7) % blockSize) ≤
          b.length
        rw [hmin, hb, bufferSize_eq]
        omega)
    have hX : (⟨[], b, 0, k * 32768, k * 32768 + 7, fb⟩ : WState).fragEnd +
        min d.length (blockSize -
          (⟨[], b, 0, k * 32768, k * 32768 + 7, fb⟩ : WState).fragEnd % blockSize) =
        k * 32768 + 32768 := by
      show k * 32768 + 7 + min d.length (blockSize - (k * 32768 + 7) % blockSize) =
        k * 32768 + 32768
      have h9 := hmin
      omega
    rw [hX] at hchunk
    have hupd : ({ (⟨[], b, 0, k * 32768, k * 32768 + 7, fb⟩ : WState) with
        buffer := b1, fragEnd := k * 32768 + 32768 } : WState) =
        ⟨[], b1, 0, k * 32768, k * 32768 + 32768, fb⟩ := rfl
    rw [hupd] at hchunk
    have hb1' : b1.length = bufferSize := by
      rw [hb1]
      exact hb
    by_cases hm0 : m = 0
    · -- last block: the data runs out exactly at the end of the buffer
      subst hm0
      refine ⟨b1, hb1', ?_⟩
      simp only [appendLoop]
      rw [if_pos (le_refl (k * 32768))]
      simp only [h3, hchunk]
      rw [hmin, if_pos (by omega)]
      obtain rfl : k = 31 := by omega
      rw [show (31 : Nat) * 32768 + 32768 = 1048576 from by norm_num]
      norm_num
    · -- inner block: close the fragment and continue with the next block
      obtain ⟨b2, hbuild, hb2⟩ := buildFragment_ok
        ⟨[], b1, 0, k * 32768, k * 32768 + 32768, fb⟩ false
        (by
          show k * 32768 + headerSize ≤ k * 32768 + 32768
          rw [headerSize_eq]
          omega)
        (by
          show k * 32768 + 32768 ≤ b1.length
          rw [hb1', bufferSize_eq]
          omega)
      have hupd2 : ({ (⟨[], b1, 0, k * 32768, k * 32768 + 32768, fb⟩ : WState) with
          buffer := b2,
          fragStart := (⟨[], b1, 0, k * 32768, k * 32768 + 32768, fb⟩ : WState).fragEnd,
          isFirstFragment := false } : WState) =
          ⟨[], b2, 0, (k + 1) * 32768, (k + 1) * 32768, false⟩ := by
        show (⟨[], b2, 0, k * 32768 + 32768, k * 32768 + 32768, false⟩ : WState) = _
        rw [show k * 32768 + 32768 = (k + 1) * 32768 from by ring]
      rw [hupd2] at hbuild
      have hb2' : b2.length = bufferSize := by
        rw [hb2]
        exact hb1'
      obtain ⟨b', hb', hloop⟩ := ih (k + 1) b2 (d.drop 32761) false f
        (by omega) (by omega) hb2'
        (by
          rw [List.length_drop, hd]
          omega)
        (by
          rw [List.length_drop]
          omega)
      refine ⟨b', hb', ?_⟩
      simp only [appendLoop]
      rw [if_pos (le_refl (k * 32768))]
      simp only [h3, hchunk]
      rw [hmin, if_neg (by omega)]
      simp only [hbuild]
      rw [hloop]
      rw [ite_self, if_neg (by omega)]

theorem appendChunk_panic (data : List Nat) (s1 : WState)
    (h : setRange s1.buffer s1.fragEnd
      (data.take (min data.length (blockSize - s1.fragEnd % blockSize))) = none) :
    appendChunk data s1 = .panicked "slice index out of bounds" := by
  rw [appendChunk, h]

theorem appendLoop_panic_started (fuel : Nat) (data : List Nat) (s : WState)
    (msg : String) (hne : ¬s.fragEnd ≤ s.fragStart)
    (hch : appendChunk data s = .panicked msg) :
    appendLoop (fuel + 1) data s = .panicked msg := by
  simp only [appendLoop]
  rw [if_neg hne]
  simp only [hch]

theorem wappend_eq (d : List Nat) (s : WState) (n : Nat) (hn : d.length = n) :
    wappend d s = appendLoop (n + 1) d s := by
  rw [wappend, hn]

theorem writeRecordParts_cons_ok (d : List Nat) (rest : List (List Nat)) (s s1 : WState)
    (h : wappend d s = .ok s1) :
    writeRecordParts (d :: rest) s = writeRecordParts rest s1 := by
  rw [writeRecordParts, h]

theorem writeRecordParts_cons_panic (d : List Nat) (rest : List (List Nat)) (s : WState)
    (msg : String) (h : wappend d s = .panicked msg) :
    writeRecordParts (d :: rest) s = .panicked msg := by
  rw [writeRecordParts, h]

/-- C2: the append/read round-trip does not hold for every record: writing one
record as an append of `BUFFER_SIZE - 32 * HEADER_SIZE` bytes followed by an
append of one more byte panics inside `FileWriter::append`.  The first append
leaves the record's last fragment open with its end exactly at `BUFFER_SIZE`;
the second append computes `len = BLOCK_SIZE - (end % BLOCK_SIZE)` and the
store `buffer[end..end + len]` runs past the buffer.  No finished file is
produced, so `read` cannot return the record. -/
theorem journal_write_buffer_end_panics :
    writeRecordParts [List.replicate (32 * 32761) 1, [1]] WState.init =
      .panicked "slice index out of bounds" := by
  obtain ⟨b', hb', happ⟩ := appendLoop_blocks 32 0 (List.replicate bufferSize 0)
    (List.replicate (32 * 32761) 1) true (32 * 32761 + 1) (by norm_num) (by norm_num)
    (by rw [List.length_replicate]) (by rw [List.length_replicate])
    (by rw [List.length_replicate])
  rw [if_neg (by norm_num : ¬(32 = 1))] at happ
  have hmin1 : min ([1] : List Nat).length (blockSize - (1048576 : Nat) % blockSize) = 1 := by
    rw [blockSize_eq]
    norm_num
  have hsr : setRange b' 1048576 (([1] : List Nat).take (min ([1] : List Nat).length
      (blockSize - (1048576 : Nat) % blockSize))) = none := by
    rw [hmin1, setRange]
    rw [if_neg (by simp [hb', bufferSize_eq])]
  have hch : appendChunk [1] (⟨[], b', 0, 31 * 32768, 1048576, false⟩ : WState) =
      .panicked "slice index out of bounds" := appendChunk_panic [1] _ hsr
  have hw1 : wappend (List.replicate (32 * 32761) 1) WState.init =
      .ok ⟨[], b', 0, 31 * 32768, 1048576, false⟩ := by
    have he := wappend_eq (List.replicate (32 * 32761) 1) WState.init (32 * 32761)
      (by rw [List.length_replicate])
    have hs : WState.init =
        (⟨[], List.replicate bufferSize 0, 0, 0 * 32768, 0 * 32768, true⟩ : WState) := rfl
    exact he.trans (by rw [hs]; exact happ)
  have hw2 : wappend [1] (⟨[], b', 0, 31 * 32768, 1048576, false⟩ : WState) =
      .panicked "slice index out of bounds" := by
    have he := wappend_eq [1] (⟨[], b', 0, 31 * 32768, 1048576, false⟩ : WState) 1 rfl
    refine he.trans ?_
    exact appendLoop_panic_started 1 [1] _ _ (by norm_num) hch
  exact (writeRecordParts_cons_ok _ _ _ _ hw1).trans
    (writeRecordParts_cons_panic _ _ _ _ hw2)

end VBase
